import Mathlib

/-!
Verification development for the extractive summarizer in `src/code/logic/summary.c`
(`fish_summary` and its helpers `split_sentences`, `tokenize_sentence`, `vocab_find`,
`vocab_add`).  The C code is embedded shallowly: strings are `List Char`, the C `int`
depth is `Int`, machine doubles are modelled as real numbers (`ℝ`, with `Real.log`
for `log`), and the in-place arrays of the C code become functional lists.  File
reading, terminal output and out-of-memory paths are outside the model: `fish_summary`
here receives the document content directly, exactly as the C code holds it in
`content` after the `fread`, and returns its status code together with the original
indices of the sentences it would print.
-/

set_option maxHeartbeats 1000000

namespace Fish

/-- Constant `MAX_SENTENCES` from summary.c. -/
def MAX_SENTENCES : Nat := 2048

/-- Constant `MAX_WORDS_SENT` from summary.c. -/
def MAX_WORDS_SENT : Nat := 2048

/-- Constant `MAX_WORD_LEN` from summary.c. -/
def MAX_WORD_LEN : Nat := 64

/-- Constant `MAX_VOCAB` from summary.c. -/
def MAX_VOCAB : Nat := 65536

/-- C `isspace` on the default locale (space, tab, newline, vertical tab,
form feed, carriage return), as used by `trim`, `split_sentences`. -/
def isSpaceC (c : Char) : Bool :=
  c = ' ' || c = '\t' || c = '\n' || c = '\x0b' || c = '\x0c' || c = '\r'

/-- C `isalnum` on ASCII, as used by `tokenize_sentence`. -/
def isAlnumC (c : Char) : Bool :=
  ('0' ≤ c && c ≤ '9') || ('a' ≤ c && c ≤ 'z') || ('A' ≤ c && c ≤ 'Z')

/-- C `tolower` on ASCII, as used by `tokenize_sentence`. -/
def toLowerC (c : Char) : Char :=
  if 'A' ≤ c && c ≤ 'Z' then Char.ofNat (c.toNat + 32) else c

/-- Sentence boundary characters recognized by `split_sentences`. -/
def isBoundaryC (c : Char) : Bool :=
  c = '.' || c = '?' || c = '!' || c = '\n'

/-- The `trim` helper of summary.c: strip leading and trailing whitespace. -/
def fishTrim (s : List Char) : List Char :=
  ((s.dropWhile isSpaceC).reverse.dropWhile isSpaceC).reverse

theorem dropWhile_length_le {α : Type} (p : α → Bool) (l : List α) :
    (l.dropWhile p).length ≤ l.length := by
  induction l with
  | nil => simp
  | cons a l ih =>
    by_cases h : p a
    · simp only [List.dropWhile_cons, h, if_true]
      exact Nat.le_succ_of_le ih
    · simp [List.dropWhile_cons, h]

/-- Loop of `split_sentences`: `rest` is the unread tail (`p` onwards), `span` is
the pending sentence span (`start` up to `p`), `count` the number of sentences
emitted so far.  On a boundary character the span including the boundary is
trimmed and emitted if non-empty, then whitespace after the boundary is skipped;
a non-empty trailing span is emitted at end of input; the loop stops as soon as
`count` reaches `maxS`. -/
def splitGo (maxS : Nat) (rest span : List Char) (count : Nat) : List (List Char) :=
  if count < maxS then
    match rest with
    | [] => if fishTrim span = [] then [] else [fishTrim span]
    | c :: rest' =>
      if isBoundaryC c then
        let t := fishTrim (span ++ [c])
        let rest2 := rest'.dropWhile isSpaceC
        if t = [] then splitGo maxS rest2 [] count
        else t :: splitGo maxS rest2 [] (count + 1)
      else splitGo maxS rest' (span ++ [c]) count
  else []
termination_by rest.length
decreasing_by
  · exact Nat.lt_succ_of_le (dropWhile_length_le isSpaceC rest')
  · exact Nat.lt_succ_of_le (dropWhile_length_le isSpaceC rest')
  · exact Nat.lt_succ_self rest'.length

/-- The `split_sentences` function of summary.c. -/
def split_sentences (content : List Char) (maxS : Nat) : List (List Char) :=
  splitGo maxS content [] 0

/-- Loop of `tokenize_sentence`: `chars` is the unread part of the sentence,
`buf` the pending token buffer (already lower-cased, capped at
`MAX_WORD_LEN - 1` characters), `w` the number of tokens emitted so far.  The
terminating NUL of the C string is the `[]` case: a non-alphanumeric character
that flushes the pending buffer.  Scanning stops once `w` reaches `maxW`. -/
def tokGo (maxW : Nat) : List Char → List Char → Nat → List (List Char)
  | [], buf, w =>
    if w < maxW then
      if buf = [] then [] else [buf]
    else []
  | c :: rest, buf, w =>
    if w < maxW then
      if isAlnumC c then
        tokGo maxW rest (if buf.length < MAX_WORD_LEN - 1 then buf ++ [toLowerC c] else buf) w
      else
        if buf = [] then tokGo maxW rest [] w
        else buf :: tokGo maxW rest [] (w + 1)
    else []

/-- The `tokenize_sentence` function of summary.c. -/
def tokenize_sentence (sent : List Char) (maxW : Nat) : List (List Char) :=
  tokGo maxW sent [] 0

/-- The `VocabEntry` struct of summary.c. -/
structure VocabEntry where
  word : List Char
  df : Nat
  tf_total : Nat
deriving Repr, DecidableEq

/-- Default vocabulary entry used for out-of-range reads. -/
def ventryD : VocabEntry := ⟨[], 0, 0⟩

/-- Word stored at index `j` of the vocabulary. -/
def wordAt (vocab : List VocabEntry) (j : Nat) : List Char :=
  (vocab.getD j ventryD).word

/-- Document frequency stored at index `j` of the vocabulary. -/
def dfAt (vocab : List VocabEntry) (j : Nat) : Nat :=
  (vocab.getD j ventryD).df

/-- Words of the vocabulary, in index order. -/
def wordsOf (vocab : List VocabEntry) : List (List Char) :=
  vocab.map (fun e => e.word)

/-- The `vocab_find` function of summary.c: index of the first entry whose
word equals `w` (`none` for the C return value `-1`). -/
def vocab_find : List VocabEntry → List Char → Option Nat
  | [], _ => none
  | e :: rest, w => if e.word = w then some 0 else (vocab_find rest w).map (· + 1)

/-- Functional update of one list position, used for the in-place field
updates (`vocab[vidx].tf_total += 1`, `vocab[vidx].df += 1`) of the C code. -/
def modifyAt {α : Type} : List α → Nat → (α → α) → List α
  | [], _, _ => []
  | x :: xs, 0, f => f x :: xs
  | x :: xs, i + 1, f => x :: modifyAt xs i f

/-- Increment of the `tf_total` field. -/
def incTf (e : VocabEntry) : VocabEntry := ⟨e.word, e.df, e.tf_total + 1⟩

/-- Increment of the `df` field. -/
def incDf (e : VocabEntry) : VocabEntry := ⟨e.word, e.df + 1, e.tf_total⟩

/-- The scan of `idx_list`/`count_list` that bumps the count of the first
entry whose index field equals `v`. -/
def bumpFirst : List (Nat × Nat) → Nat → List (Nat × Nat)
  | [], _ => []
  | p :: ps, v => if p.1 = v then (p.1, p.2 + 1) :: ps else p :: bumpFirst ps v

/-- One token's effect on the per-sentence pair list `idx_list`/`count_list`:
bump the existing pair for `vidx`, or append `(vidx, 1)` (which also records
`vidx` in `unique_indices`). -/
def accAdd (acc : List (Nat × Nat)) (vidx : Nat) : List (Nat × Nat) :=
  if acc.any (fun p => p.1 = vidx) then bumpFirst acc vidx else acc ++ [(vidx, 1)]

/-- The per-sentence token loop of `fish_summary` (the `for (t …)` loop):
skips empty tokens, resolves each token through `vocab_find` / `vocab_add`
(appending a fresh entry when absent, or breaking out of the loop when the
vocabulary is full), bumps `tf_total`, and accumulates the
`idx_list`/`count_list` pairs in `acc`. -/
def sentLoop (maxV : Nat) : List (List Char) → List VocabEntry → List (Nat × Nat) →
    List VocabEntry × List (Nat × Nat)
  | [], vocab, acc => (vocab, acc)
  | tok :: rest, vocab, acc =>
    if tok = [] then sentLoop maxV rest vocab acc
    else
      match vocab_find vocab tok with
      | some vidx => sentLoop maxV rest (modifyAt vocab vidx incTf) (accAdd acc vidx)
      | none =>
        if maxV ≤ vocab.length then (vocab, acc)
        else
          sentLoop maxV rest (modifyAt (vocab ++ [⟨tok, 0, 0⟩]) vocab.length incTf)
            (accAdd acc vocab.length)

/-- The `for (u …)` loop of `fish_summary`: bump `df` once for every index
recorded in `unique_indices` (equivalently, the index fields of `acc`). -/
def bumpDf (vocab : List VocabEntry) (acc : List (Nat × Nat)) : List VocabEntry :=
  acc.foldl (fun v p => modifyAt v p.1 incDf) vocab

/-- Processing of one sentence in `fish_summary`'s vocabulary-building phase:
tokenize, run the token loop, then apply the df bumps.  Returns the updated
vocabulary and the sentence's stored `(index, count)` pair list. -/
def processSentence (maxV maxW : Nat) (vocab : List VocabEntry) (sent : List Char) :
    List VocabEntry × List (Nat × Nat) :=
  let toks := tokenize_sentence sent maxW
  let r := sentLoop maxV toks vocab []
  (bumpDf r.1 r.2, r.2)

/-- The whole vocabulary-building phase over the sentence list, returning the
final vocabulary and the per-sentence pair lists (`sent_word_counts`). -/
def buildGo (maxV maxW : Nat) : List (List Char) → List VocabEntry →
    List VocabEntry × List (List (Nat × Nat))
  | [], vocab => (vocab, [])
  | s :: rest, vocab =>
    let r := processSentence maxV maxW vocab s
    let r2 := buildGo maxV maxW rest r.1
    (r2.1, r.2 :: r2.2)

/-- The smoothed idf computed by `fish_summary`:
`idf[v] = log((double)nsent / (1.0 + (double)vocab[v].df))`. -/
noncomputable def idfTable (nsent : Nat) (vocab : List VocabEntry) (v : Nat) : ℝ :=
  Real.log ((nsent : ℝ) / (1 + (dfAt vocab v : ℝ)))

/-- The per-sentence score loop of `fish_summary`:
`score += (double)tf * idf[vidx]` over the stored pair list. -/
noncomputable def sentScore (idf : Nat → ℝ) (vec : List (Nat × Nat)) : ℝ :=
  vec.foldl (fun s p => s + (p.2 : ℝ) * idf p.1) 0

/-- The inner scan of one greedy selection round of `fish_summary`: starting
from index `i` with current best candidate `best` at score `bestScore`
(initially `none` / `-1e300`), skip selected sentences and remember the first
index whose score strictly exceeds the running best. -/
noncomputable def pickFrom (scores : List ℝ) (sel : List Bool) (i : Nat)
    (best : Option Nat) (bestScore : ℝ) : Option Nat :=
  if i < scores.length then
    if sel.getD i false then pickFrom scores sel (i + 1) best bestScore
    else if bestScore < scores.getD i 0 then
      pickFrom scores sel (i + 1) (some i) (scores.getD i 0)
    else pickFrom scores sel (i + 1) best bestScore
  else best
termination_by scores.length - i

/-- One full scan (`for (i …)`) of a greedy selection round. -/
noncomputable def pickBest (scores : List ℝ) (sel : List Bool) : Option Nat :=
  pickFrom scores sel 0 none (-1e300)

/-- The `for (k …)` greedy selection loop of `fish_summary`: `K` rounds, each
marking the round's best unselected sentence (if any) as selected. -/
noncomputable def selectRounds (scores : List ℝ) : Nat → List Bool → List Bool
  | 0, sel => sel
  | k + 1, sel =>
    match pickBest scores sel with
    | some b => selectRounds scores k (sel.set b true)
    | none => selectRounds scores k sel

/-- The whole selection phase: `K` greedy rounds starting from the all-false
`selected_idx` array. -/
noncomputable def selectTopK (scores : List ℝ) (K : Nat) : List Bool :=
  selectRounds scores K (List.replicate scores.length false)

/-- The `out_order` collection loop of `fish_summary`: selected indices in
ascending original order. -/
def outOrder (sel : List Bool) : List Nat :=
  (List.range sel.length).filter (fun i => sel.getD i false)

/-- The depth-to-K mapping of `fish_summary`
(`depth <= 1 → 1`, `2 → 3`, `3 → 5`, otherwise `10`). -/
def mappedK (depth : Int) : Nat :=
  if depth ≤ 1 then 1 else if depth = 2 then 3 else if depth = 3 then 5 else 10

/-- Sentences of a document, as `fish_summary` computes them. -/
def sentsOf (content : List Char) : List (List Char) :=
  split_sentences content MAX_SENTENCES

/-- Number of sentences (`nsent`). -/
def nsentOf (content : List Char) : Nat :=
  (sentsOf content).length

/-- Result of the vocabulary-building phase on a document. -/
def corpusOf (content : List Char) : List VocabEntry × List (List (Nat × Nat)) :=
  buildGo MAX_VOCAB MAX_WORDS_SENT (sentsOf content) []

/-- Final vocabulary of a document. -/
def vocabOf (content : List Char) : List VocabEntry :=
  (corpusOf content).1

/-- Stored per-sentence `(index, count)` lists of a document. -/
def vecsOf (content : List Char) : List (List (Nat × Nat)) :=
  (corpusOf content).2

/-- The idf table of a document. -/
noncomputable def idfOf (content : List Char) : Nat → ℝ :=
  idfTable (nsentOf content) (vocabOf content)

/-- The `sent_score` array of a document. -/
noncomputable def scoresOf (content : List Char) : List ℝ :=
  (vecsOf content).map (sentScore (idfOf content))

/-- The `fish_summary` pipeline on document content already read into memory:
returns the C status code together with the original indices of the sentences
printed as the summary.  The empty-segmentation case returns success with an
empty summary; otherwise the top-`min(K, nsent)` sentences by score are
selected greedily and emitted in original order. -/
noncomputable def fish_summary (content : List Char) (depth : Int) : Int × List Nat :=
  if nsentOf content = 0 then (0, [])
  else (0, outOrder (selectTopK (scoresOf content) (min (mappedK depth) (nsentOf content))))

/-! ### Basic lemmas about `modifyAt` -/

theorem length_modifyAt {α : Type} (l : List α) (i : Nat) (f : α → α) :
    (modifyAt l i f).length = l.length := by
  induction l generalizing i with
  | nil => rfl
  | cons x xs ih =>
    cases i with
    | zero => rfl
    | succ n => simpa [modifyAt] using ih n

theorem modifyAt_of_length_le {α : Type} (l : List α) (i : Nat) (f : α → α)
    (h : l.length ≤ i) : modifyAt l i f = l := by
  induction l generalizing i with
  | nil => rfl
  | cons x xs ih =>
    cases i with
    | zero => simp at h
    | succ n => simpa [modifyAt] using ih n (by simpa using h)

theorem getD_modifyAt_ne {α : Type} (l : List α) (i j : Nat) (f : α → α) (d : α)
    (h : j ≠ i) : (modifyAt l i f).getD j d = l.getD j d := by
  induction l generalizing i j with
  | nil => rfl
  | cons x xs ih =>
    cases i with
    | zero =>
      cases j with
      | zero => exact absurd rfl h
      | succ m => simp [modifyAt]
    | succ n =>
      cases j with
      | zero => simp [modifyAt]
      | succ m => simpa [modifyAt] using ih n m (by omega)

theorem getD_modifyAt_self {α : Type} (l : List α) (i : Nat) (f : α → α) (d : α)
    (h : i < l.length) : (modifyAt l i f).getD i d = f (l.getD i d) := by
  induction l generalizing i with
  | nil => simp at h
  | cons x xs ih =>
    cases i with
    | zero => simp [modifyAt]
    | succ n => simpa [modifyAt] using ih n (by simpa using h)

theorem wordAt_modifyAt_incTf (vocab : List VocabEntry) (i j : Nat) :
    wordAt (modifyAt vocab i incTf) j = wordAt vocab j := by
  by_cases hj : j = i
  · subst hj
    by_cases hi : j < vocab.length
    · unfold wordAt
      rw [getD_modifyAt_self vocab j incTf ventryD hi]
      rfl
    · rw [modifyAt_of_length_le vocab j incTf (Nat.le_of_not_lt hi)]
  · unfold wordAt
    rw [getD_modifyAt_ne vocab i j incTf ventryD hj]

theorem dfAt_modifyAt_incTf (vocab : List VocabEntry) (i j : Nat) :
    dfAt (modifyAt vocab i incTf) j = dfAt vocab j := by
  by_cases hj : j = i
  · subst hj
    by_cases hi : j < vocab.length
    · unfold dfAt
      rw [getD_modifyAt_self vocab j incTf ventryD hi]
      rfl
    · rw [modifyAt_of_length_le vocab j incTf (Nat.le_of_not_lt hi)]
  · unfold dfAt
    rw [getD_modifyAt_ne vocab i j incTf ventryD hj]

theorem wordAt_modifyAt_incDf (vocab : List VocabEntry) (i j : Nat) :
    wordAt (modifyAt vocab i incDf) j = wordAt vocab j := by
  by_cases hj : j = i
  · subst hj
    by_cases hi : j < vocab.length
    · unfold wordAt
      rw [getD_modifyAt_self vocab j incDf ventryD hi]
      rfl
    · rw [modifyAt_of_length_le vocab j incDf (Nat.le_of_not_lt hi)]
  · unfold wordAt
    rw [getD_modifyAt_ne vocab i j incDf ventryD hj]

theorem dfAt_modifyAt_incDf_self (vocab : List VocabEntry) (i : Nat) (h : i < vocab.length) :
    dfAt (modifyAt vocab i incDf) i = dfAt vocab i + 1 := by
  unfold dfAt
  rw [getD_modifyAt_self vocab i incDf ventryD h]
  rfl

theorem dfAt_modifyAt_incDf_ne (vocab : List VocabEntry) (i j : Nat) (h : j ≠ i) :
    dfAt (modifyAt vocab i incDf) j = dfAt vocab j := by
  unfold dfAt
  rw [getD_modifyAt_ne vocab i j incDf ventryD h]

theorem wordsOf_modifyAt_incTf (vocab : List VocabEntry) (i : Nat) :
    wordsOf (modifyAt vocab i incTf) = wordsOf vocab := by
  induction vocab generalizing i with
  | nil => rfl
  | cons e rest ih =>
    cases i with
    | zero => simp [modifyAt, wordsOf, incTf]
    | succ n => simpa [modifyAt, wordsOf] using ih n

theorem wordsOf_modifyAt_incDf (vocab : List VocabEntry) (i : Nat) :
    wordsOf (modifyAt vocab i incDf) = wordsOf vocab := by
  induction vocab generalizing i with
  | nil => rfl
  | cons e rest ih =>
    cases i with
    | zero => simp [modifyAt, wordsOf, incDf]
    | succ n => simpa [modifyAt, wordsOf] using ih n

/-! ### Basic lemmas about `vocab_find` -/

theorem wordAt_cons_zero (e : VocabEntry) (rest : List VocabEntry) :
    wordAt (e :: rest) 0 = e.word := rfl

theorem wordAt_cons_succ (e : VocabEntry) (rest : List VocabEntry) (j : Nat) :
    wordAt (e :: rest) (j + 1) = wordAt rest j := rfl

theorem dfAt_cons_zero (e : VocabEntry) (rest : List VocabEntry) :
    dfAt (e :: rest) 0 = e.df := rfl

theorem dfAt_cons_succ (e : VocabEntry) (rest : List VocabEntry) (j : Nat) :
    dfAt (e :: rest) (j + 1) = dfAt rest j := rfl

theorem wordAt_mem (vocab : List VocabEntry) (j : Nat) (h : j < vocab.length) :
    wordAt vocab j ∈ wordsOf vocab := by
  unfold wordAt wordsOf
  rw [List.getD_eq_getElem vocab ventryD h]
  exact List.mem_map_of_mem (fun e => e.word) (vocab.getElem_mem h)

theorem wordAt_append_left (vocab ext : List VocabEntry) (j : Nat) (h : j < vocab.length) :
    wordAt (vocab ++ ext) j = wordAt vocab j := by
  unfold wordAt
  rw [List.getD_append vocab ext ventryD j h]

theorem dfAt_append_left (vocab ext : List VocabEntry) (j : Nat) (h : j < vocab.length) :
    dfAt (vocab ++ ext) j = dfAt vocab j := by
  unfold dfAt
  rw [List.getD_append vocab ext ventryD j h]

theorem vocab_find_some (vocab : List VocabEntry) (w : List Char) (j : Nat)
    (h : vocab_find vocab w = some j) : j < vocab.length ∧ wordAt vocab j = w := by
  induction vocab generalizing j with
  | nil => simp [vocab_find] at h
  | cons e rest ih =>
    by_cases he : e.word = w
    · simp only [vocab_find, he, if_true, Option.some.injEq] at h
      subst h
      exact ⟨Nat.succ_pos _, he⟩
    · simp only [vocab_find, he, if_false, Option.map_eq_some'] at h
      obtain ⟨j', hj', rfl⟩ := h
      obtain ⟨h1, h2⟩ := ih j' hj'
      exact ⟨Nat.succ_lt_succ h1, h2⟩

theorem vocab_find_none (vocab : List VocabEntry) (w : List Char)
    (h : vocab_find vocab w = none) : w ∉ wordsOf vocab := by
  induction vocab with
  | nil => simp [wordsOf]
  | cons e rest ih =>
    by_cases he : e.word = w
    · simp [vocab_find, he] at h
    · simp only [vocab_find, he, if_false, Option.map_eq_none'] at h
      simp only [wordsOf, List.map_cons, List.mem_cons]
      rintro (h1 | h1)
      · exact he h1.symm
      · exact ih h h1

theorem vocab_find_of_wordAt (vocab : List VocabEntry) (j : Nat) (h : j < vocab.length)
    (hn : (wordsOf vocab).Nodup) : vocab_find vocab (wordAt vocab j) = some j := by
  induction vocab generalizing j with
  | nil => simp at h
  | cons e rest ih =>
    have hn' : (wordsOf rest).Nodup ∧ e.word ∉ wordsOf rest := by
      simpa only [wordsOf, List.map_cons, List.nodup_cons, and_comm] using hn
    cases j with
    | zero => simp [vocab_find, wordAt_cons_zero]
    | succ m =>
      rw [wordAt_cons_succ]
      have hm : m < rest.length := by simpa using h
      have hne : e.word ≠ wordAt rest m := by
        intro hc
        exact hn'.2 (hc ▸ wordAt_mem rest m hm)
      simp only [vocab_find, hne, if_false, ih m hm hn'.1, Option.map_some']

/-! ### Basic lemmas about the pair-list accumulator -/

/-- Sum of the stored in-sentence counts of a pair list. -/
def sumSnd (acc : List (Nat × Nat)) : Nat :=
  (acc.map (fun p => p.2)).sum

/-- Index fields of a pair list (the `idx_list` array). -/
def fsts (acc : List (Nat × Nat)) : List Nat :=
  acc.map (fun p => p.1)

theorem fsts_bumpFirst (acc : List (Nat × Nat)) (v : Nat) :
    fsts (bumpFirst acc v) = fsts acc := by
  induction acc with
  | nil => rfl
  | cons p ps ih =>
    by_cases hp : p.1 = v
    · simp [bumpFirst, hp, fsts]
    · simpa [bumpFirst, hp, fsts] using ih

theorem sumSnd_bumpFirst_le (acc : List (Nat × Nat)) (v : Nat) :
    sumSnd (bumpFirst acc v) ≤ sumSnd acc + 1 := by
  induction acc with
  | nil => simp [bumpFirst, sumSnd]
  | cons p ps ih =>
    by_cases hp : p.1 = v
    · simp only [bumpFirst, hp, if_true, sumSnd, List.map_cons, List.sum_cons]
      omega
    · simp only [bumpFirst, hp, if_false, sumSnd, List.map_cons, List.sum_cons]
      have := ih
      simp only [sumSnd] at this
      omega

theorem sumSnd_accAdd_le (acc : List (Nat × Nat)) (v : Nat) :
    sumSnd (accAdd acc v) ≤ sumSnd acc + 1 := by
  unfold accAdd
  by_cases hmem : acc.any (fun p => p.1 = v)
  · simpa [hmem] using sumSnd_bumpFirst_le acc v
  · simp [hmem, sumSnd]

theorem mem_bumpFirst (acc : List (Nat × Nat)) (v : Nat) (p : Nat × Nat)
    (hnd : (fsts acc).Nodup) (hp : p ∈ bumpFirst acc v) :
    (p.1 ≠ v ∧ p ∈ acc) ∨ (p.1 = v ∧ 1 ≤ p.2 ∧ (v, p.2 - 1) ∈ acc) := by
  induction acc with
  | nil => simp [bumpFirst] at hp
  | cons q qs ih =>
    have hnd' : (fsts qs).Nodup ∧ q.1 ∉ fsts qs := by
      simpa only [fsts, List.map_cons, List.nodup_cons, and_comm] using hnd
    by_cases hq : q.1 = v
    · simp only [bumpFirst, hq, if_true, List.mem_cons] at hp
      rcases hp with rfl | hp
      · refine Or.inr ⟨rfl, by simp, ?_⟩
        simp only [Nat.add_sub_cancel]
        have hqv : (v, q.2) = q := by rw [← hq]
        rw [hqv]
        exact List.mem_cons_self q qs
      · left
        constructor
        · intro hc
          have : p.1 ∈ fsts qs := by
            unfold fsts
            exact List.mem_map_of_mem _ hp
          rw [hc, ← hq] at this
          exact hnd'.2 this
        · exact List.mem_cons_of_mem q hp
    · simp only [bumpFirst, hq, if_false, List.mem_cons] at hp
      rcases hp with rfl | hp
      · exact Or.inl ⟨hq, List.mem_cons_self _ _⟩
      · rcases ih hnd'.1 hp with ⟨h1, h2⟩ | ⟨h1, h2, h3⟩
        · exact Or.inl ⟨h1, List.mem_cons_of_mem q h2⟩
        · exact Or.inr ⟨h1, h2, List.mem_cons_of_mem q h3⟩

theorem fsts_accAdd_present (acc : List (Nat × Nat)) (v : Nat)
    (h : acc.any (fun p => p.1 = v)) : fsts (accAdd acc v) = fsts acc := by
  unfold accAdd
  rw [if_pos h]
  exact fsts_bumpFirst acc v

theorem fsts_accAdd_absent (acc : List (Nat × Nat)) (v : Nat)
    (h : ¬ acc.any (fun p => p.1 = v)) : fsts (accAdd acc v) = fsts acc ++ [v] := by
  unfold accAdd
  rw [if_neg h]
  simp [fsts]

theorem any_fst_iff_mem_fsts (acc : List (Nat × Nat)) (v : Nat) :
    acc.any (fun p => p.1 = v) = true ↔ v ∈ fsts acc := by
  unfold fsts
  simp only [List.any_eq_true, List.mem_map]
  constructor
  · rintro ⟨p, hp, he⟩
    exact ⟨p, hp, by simpa using he⟩
  · rintro ⟨p, hp, he⟩
    exact ⟨p, hp, by simpa using he⟩

/-! ### Structural lemmas about the token loop -/

theorem dfAt_of_length_le (vocab : List VocabEntry) (j : Nat) (h : vocab.length ≤ j) :
    dfAt vocab j = 0 := by
  unfold dfAt
  rw [List.getD_eq_default vocab ventryD h]
  rfl

theorem wordsOf_append_single (vocab : List VocabEntry) (tok : List Char) :
    wordsOf (vocab ++ [⟨tok, 0, 0⟩]) = wordsOf vocab ++ [tok] := by
  simp [wordsOf]

/-- Shape facts about one run of the token loop: the vocabulary only grows,
existing words and df fields are untouched (only `tf_total` changes), entries
at or beyond the original length have df 0, and the `MAX_VOCAB` capacity is
respected. -/
theorem sentLoop_shape (maxV : Nat) (toks : List (List Char)) (vocab : List VocabEntry)
    (acc : List (Nat × Nat)) :
    vocab.length ≤ (sentLoop maxV toks vocab acc).1.length ∧
    (∀ j, j < vocab.length → wordAt (sentLoop maxV toks vocab acc).1 j = wordAt vocab j) ∧
    (∀ j, j < vocab.length → dfAt (sentLoop maxV toks vocab acc).1 j = dfAt vocab j) ∧
    (∀ j, vocab.length ≤ j → dfAt (sentLoop maxV toks vocab acc).1 j = 0) ∧
    (vocab.length ≤ maxV → (sentLoop maxV toks vocab acc).1.length ≤ maxV) := by
  induction toks generalizing vocab acc with
  | nil =>
    refine ⟨Nat.le_refl _, fun j _ => rfl, fun j _ => rfl, ?_, fun h => h⟩
    intro j hj
    exact dfAt_of_length_le vocab j hj
  | cons tok rest ih =>
    by_cases ht : tok = []
    · simpa [sentLoop, ht] using ih vocab acc
    · cases hf : vocab_find vocab tok with
      | some vidx =>
        have step : sentLoop maxV (tok :: rest) vocab acc =
            sentLoop maxV rest (modifyAt vocab vidx incTf) (accAdd acc vidx) := by
          simp [sentLoop, ht, hf]
        rw [step]
        obtain ⟨h1, h2, h3, h4, h5⟩ := ih (modifyAt vocab vidx incTf) (accAdd acc vidx)
        rw [length_modifyAt] at h1 h5
        refine ⟨h1, ?_, ?_, ?_, h5⟩
        · intro j hj
          rw [h2 j (by rwa [length_modifyAt]), wordAt_modifyAt_incTf]
        · intro j hj
          rw [h3 j (by rwa [length_modifyAt]), dfAt_modifyAt_incTf]
        · intro j hj
          exact h4 j (by rwa [length_modifyAt])
      | none =>
        by_cases hc : maxV ≤ vocab.length
        · have step : sentLoop maxV (tok :: rest) vocab acc = (vocab, acc) := by
            simp [sentLoop, ht, hf, hc]
          rw [step]
          refine ⟨Nat.le_refl _, fun j _ => rfl, fun j _ => rfl, ?_, fun h => h⟩
          intro j hj
          exact dfAt_of_length_le vocab j hj
        · set v1 := modifyAt (vocab ++ [⟨tok, 0, 0⟩]) vocab.length incTf with hv1
          have step : sentLoop maxV (tok :: rest) vocab acc =
              sentLoop maxV rest v1 (accAdd acc vocab.length) := by
            simp [sentLoop, ht, hf, hc, hv1]
          have hlen1 : v1.length = vocab.length + 1 := by
            rw [hv1, length_modifyAt, List.length_append, List.length_cons, List.length_nil]
          have hword1 : ∀ j, j < vocab.length → wordAt v1 j = wordAt vocab j := by
            intro j hj
            rw [hv1]
            unfold wordAt
            rw [getD_modifyAt_ne _ _ _ _ _ (Nat.ne_of_lt hj),
              List.getD_append _ _ _ _ hj]
          have hdf1 : ∀ j, j < vocab.length → dfAt v1 j = dfAt vocab j := by
            intro j hj
            rw [hv1]
            unfold dfAt
            rw [getD_modifyAt_ne _ _ _ _ _ (Nat.ne_of_lt hj),
              List.getD_append _ _ _ _ hj]
          have hdfnew : ∀ j, vocab.length ≤ j → dfAt v1 j = 0 := by
            intro j hj
            rcases Nat.eq_or_lt_of_le hj with hj' | hj'
            · rw [hv1]
              unfold dfAt
              rw [← hj', getD_modifyAt_self _ _ _ _
                (by rw [List.length_append]; simp)]
              rw [List.getD_append_right _ _ _ _ (Nat.le_refl _), Nat.sub_self]
              rfl
            · apply dfAt_of_length_le
              omega
          rw [step]
          obtain ⟨h1, h2, h3, h4, h5⟩ := ih v1 (accAdd acc vocab.length)
          refine ⟨?_, ?_, ?_, ?_, ?_⟩
          · omega
          · intro j hj
            rw [h2 j (by omega), hword1 j hj]
          · intro j hj
            rw [h3 j (by omega), hdf1 j hj]
          · intro j hj
            rcases Nat.lt_or_ge j v1.length with hj' | hj'
            · rw [h3 j hj', hdfnew j hj]
            · exact h4 j hj'
          · intro _
            exact h5 (by omega)

/-- The result vocabulary of the token loop, like every intermediate one,
keeps its words free of duplicates. -/
theorem sentLoop_nodup (maxV : Nat) (toks : List (List Char)) (vocab : List VocabEntry)
    (acc : List (Nat × Nat)) (hn : (wordsOf vocab).Nodup) :
    (wordsOf (sentLoop maxV toks vocab acc).1).Nodup := by
  induction toks generalizing vocab acc with
  | nil => exact hn
  | cons tok rest ih =>
    by_cases ht : tok = []
    · simpa [sentLoop, ht] using ih vocab acc hn
    · cases hf : vocab_find vocab tok with
      | some vidx =>
        have step : sentLoop maxV (tok :: rest) vocab acc =
            sentLoop maxV rest (modifyAt vocab vidx incTf) (accAdd acc vidx) := by
          simp [sentLoop, ht, hf]
        rw [step]
        exact ih _ _ (by rwa [wordsOf_modifyAt_incTf])
      | none =>
        by_cases hc : maxV ≤ vocab.length
        · have step : sentLoop maxV (tok :: rest) vocab acc = (vocab, acc) := by
            simp [sentLoop, ht, hf, hc]
          rw [step]
          exact hn
        · have step : sentLoop maxV (tok :: rest) vocab acc =
              sentLoop maxV rest (modifyAt (vocab ++ [⟨tok, 0, 0⟩]) vocab.length incTf)
                (accAdd acc vocab.length) := by
            simp [sentLoop, ht, hf, hc]
          rw [step]
          apply ih
          rw [wordsOf_modifyAt_incTf, wordsOf_append_single]
          have hnot : tok ∉ wordsOf vocab := vocab_find_none vocab tok hf
          simp [List.nodup_append, hn, hnot, List.disjoint_singleton]

/-- The total stored count grows by at most one per token. -/
theorem sentLoop_sumSnd (maxV : Nat) (toks : List (List Char)) (vocab : List VocabEntry)
    (acc : List (Nat × Nat)) :
    sumSnd (sentLoop maxV toks vocab acc).2 ≤ sumSnd acc + toks.length := by
  induction toks generalizing vocab acc with
  | nil => simp [sentLoop]
  | cons tok rest ih =>
    by_cases ht : tok = []
    · have := ih vocab acc
      simp only [sentLoop, ht, if_true]
      calc sumSnd (sentLoop maxV rest vocab acc).2 ≤ sumSnd acc + rest.length := ih vocab acc
        _ ≤ sumSnd acc + (tok :: rest).length := by simp
    · cases hf : vocab_find vocab tok with
      | some vidx =>
        have step : sentLoop maxV (tok :: rest) vocab acc =
            sentLoop maxV rest (modifyAt vocab vidx incTf) (accAdd acc vidx) := by
          simp [sentLoop, ht, hf]
        rw [step]
        calc sumSnd (sentLoop maxV rest _ (accAdd acc vidx)).2
            ≤ sumSnd (accAdd acc vidx) + rest.length := ih _ _
          _ ≤ sumSnd acc + 1 + rest.length := by
              have := sumSnd_accAdd_le acc vidx
              omega
          _ = sumSnd acc + (tok :: rest).length := by simp [Nat.add_comm, Nat.add_assoc,
              Nat.add_left_comm]
      | none =>
        by_cases hc : maxV ≤ vocab.length
        · have step : sentLoop maxV (tok :: rest) vocab acc = (vocab, acc) := by
            simp [sentLoop, ht, hf, hc]
          rw [step]
          exact Nat.le_add_right _ _
        · have step : sentLoop maxV (tok :: rest) vocab acc =
              sentLoop maxV rest (modifyAt (vocab ++ [⟨tok, 0, 0⟩]) vocab.length incTf)
                (accAdd acc vocab.length) := by
            simp [sentLoop, ht, hf, hc]
          rw [step]
          calc sumSnd (sentLoop maxV rest _ (accAdd acc vocab.length)).2
              ≤ sumSnd (accAdd acc vocab.length) + rest.length := ih _ _
            _ ≤ sumSnd acc + 1 + rest.length := by
                have := sumSnd_accAdd_le acc vocab.length
                omega
            _ = sumSnd acc + (tok :: rest).length := by simp [Nat.add_comm, Nat.add_assoc,
                Nat.add_left_comm]

/-- Invariant of the accumulator through the token loop: index fields stay
within the vocabulary and free of duplicates. -/
theorem sentLoop_acc_inv (maxV : Nat) (toks : List (List Char)) (vocab : List VocabEntry)
    (acc : List (Nat × Nat)) (hb : ∀ p ∈ acc, p.1 < vocab.length)
    (hnd : (fsts acc).Nodup) :
    (∀ p ∈ (sentLoop maxV toks vocab acc).2, p.1 < (sentLoop maxV toks vocab acc).1.length) ∧
    (fsts (sentLoop maxV toks vocab acc).2).Nodup := by
  induction toks generalizing vocab acc with
  | nil => exact ⟨hb, hnd⟩
  | cons tok rest ih =>
    by_cases ht : tok = []
    · simpa [sentLoop, ht] using ih vocab acc hb hnd
    · have haccAdd : ∀ vidx, vidx < vocab.length ∨ vidx = vocab.length →
        (∀ p ∈ accAdd acc vidx, p.1 < vocab.length + 1) ∧ (fsts (accAdd acc vidx)).Nodup := by
        intro vidx hvidx
        unfold accAdd
        by_cases hmem : acc.any (fun p => p.1 = vidx)
        · rw [if_pos hmem]
          constructor
          · intro p hp
            have hfst : p.1 ∈ fsts (bumpFirst acc vidx) := List.mem_map_of_mem _ hp
            rw [fsts_bumpFirst] at hfst
            obtain ⟨q, hq, hqe⟩ := List.mem_map.mp hfst
            have := hb q hq
            omega
          · rw [fsts_bumpFirst]
            exact hnd
        · rw [if_neg hmem]
          constructor
          · intro p hp
            rcases List.mem_append.mp hp with hp' | hp'
            · have := hb p hp'
              omega
            · simp only [List.mem_singleton] at hp'
              subst hp'
              omega
          · have : fsts (acc ++ [(vidx, 1)]) = fsts acc ++ [vidx] := by simp [fsts]
            rw [this]
            have hvm : vidx ∉ fsts acc := by
              intro hc
              exact hmem ((any_fst_iff_mem_fsts acc vidx).mpr hc)
            simp [List.nodup_append, hnd, hvm]
      cases hf : vocab_find vocab tok with
      | some vidx =>
        have step : sentLoop maxV (tok :: rest) vocab acc =
            sentLoop maxV rest (modifyAt vocab vidx incTf) (accAdd acc vidx) := by
          simp [sentLoop, ht, hf]
        rw [step]
        have hvidx : vidx < vocab.length := (vocab_find_some vocab tok vidx hf).1
        obtain ⟨ha1, ha2⟩ := haccAdd vidx (Or.inl hvidx)
        apply ih
        · intro p hp
          have := ha1 p hp
          rw [length_modifyAt]
          rcases Nat.lt_or_ge p.1 vocab.length with h' | h'
          · exact h'
          · have hfst : p.1 ∈ fsts (accAdd acc vidx) := List.mem_map_of_mem _ hp
            by_cases hmem : acc.any (fun p => p.1 = vidx)
            · rw [fsts_accAdd_present acc vidx hmem] at hfst
              obtain ⟨q, hq, hqe⟩ := List.mem_map.mp hfst
              have := hb q hq
              omega
            · rw [fsts_accAdd_absent acc vidx hmem] at hfst
              rcases List.mem_append.mp hfst with h'' | h''
              · obtain ⟨q, hq, hqe⟩ := List.mem_map.mp h''
                have := hb q hq
                omega
              · simp only [List.mem_singleton] at h''
                omega
        · exact ha2
      | none =>
        by_cases hc : maxV ≤ vocab.length
        · have step : sentLoop maxV (tok :: rest) vocab acc = (vocab, acc) := by
            simp [sentLoop, ht, hf, hc]
          rw [step]
          exact ⟨hb, hnd⟩
        · have step : sentLoop maxV (tok :: rest) vocab acc =
              sentLoop maxV rest (modifyAt (vocab ++ [⟨tok, 0, 0⟩]) vocab.length incTf)
                (accAdd acc vocab.length) := by
            simp [sentLoop, ht, hf, hc]
          rw [step]
          obtain ⟨ha1, ha2⟩ := haccAdd vocab.length (Or.inr rfl)
          apply ih
          · intro p hp
            have := ha1 p hp
            rw [length_modifyAt, List.length_append]
            simpa using this
          · exact ha2

/-! ### Lemmas about the df bump phase -/

theorem length_bumpDf (vocab : List VocabEntry) (acc : List (Nat × Nat)) :
    (bumpDf vocab acc).length = vocab.length := by
  induction acc generalizing vocab with
  | nil => rfl
  | cons p ps ih =>
    unfold bumpDf at ih ⊢
    simp only [List.foldl_cons]
    rw [ih, length_modifyAt]

theorem wordAt_bumpDf (vocab : List VocabEntry) (acc : List (Nat × Nat)) (j : Nat) :
    wordAt (bumpDf vocab acc) j = wordAt vocab j := by
  induction acc generalizing vocab with
  | nil => rfl
  | cons p ps ih =>
    unfold bumpDf at ih ⊢
    simp only [List.foldl_cons]
    rw [ih, wordAt_modifyAt_incDf]

theorem wordsOf_bumpDf (vocab : List VocabEntry) (acc : List (Nat × Nat)) :
    wordsOf (bumpDf vocab acc) = wordsOf vocab := by
  induction acc generalizing vocab with
  | nil => rfl
  | cons p ps ih =>
    unfold bumpDf at ih ⊢
    simp only [List.foldl_cons]
    rw [ih, wordsOf_modifyAt_incDf]

theorem dfAt_bumpDf (vocab : List VocabEntry) (acc : List (Nat × Nat)) (j : Nat)
    (hacc : ∀ p ∈ acc, p.1 < vocab.length) :
    dfAt (bumpDf vocab acc) j = dfAt vocab j + (fsts acc).count j := by
  induction acc generalizing vocab with
  | nil => simp [bumpDf, fsts]
  | cons p ps ih =>
    unfold bumpDf at ih ⊢
    simp only [List.foldl_cons]
    have hps : ∀ q ∈ ps, q.1 < (modifyAt vocab p.1 incDf).length := by
      intro q hq
      rw [length_modifyAt]
      exact hacc q (List.mem_cons_of_mem p hq)
    rw [ih _ hps]
    have hp1 : p.1 < vocab.length := hacc p (List.mem_cons_self p ps)
    have hcnt : (fsts (p :: ps)).count j = (fsts ps).count j + (if p.1 = j then 1 else 0) := by
      simp only [fsts, List.map_cons, List.count_cons]
      by_cases hpj : p.1 = j <;> simp [hpj]
    rw [hcnt]
    by_cases hpj : p.1 = j
    · rw [if_pos hpj, ← hpj, dfAt_modifyAt_incDf_self vocab p.1 hp1]
      omega
    · rw [if_neg hpj, dfAt_modifyAt_incDf_ne vocab p.1 j (fun hc => hpj hc.symm)]
      omega

/-! ### Lemmas about the whole vocabulary-building phase -/

theorem processSentence_shape (maxV maxW : Nat) (vocab : List VocabEntry) (sent : List Char)
    (hn : (wordsOf vocab).Nodup) :
    vocab.length ≤ (processSentence maxV maxW vocab sent).1.length ∧
    (∀ j, j < vocab.length →
      wordAt (processSentence maxV maxW vocab sent).1 j = wordAt vocab j) ∧
    (∀ j, dfAt (processSentence maxV maxW vocab sent).1 j ≤ dfAt vocab j + 1) ∧
    (wordsOf (processSentence maxV maxW vocab sent).1).Nodup ∧
    (vocab.length ≤ maxV → (processSentence maxV maxW vocab sent).1.length ≤ maxV) := by
  unfold processSentence
  set r := sentLoop maxV (tokenize_sentence sent maxW) vocab [] with hr
  obtain ⟨h1, h2, h3, h4, h5⟩ := sentLoop_shape maxV (tokenize_sentence sent maxW) vocab []
  obtain ⟨ha1, ha2⟩ := sentLoop_acc_inv maxV (tokenize_sentence sent maxW) vocab []
    (by intro p hp; simp at hp) (by simp [fsts])
  rw [← hr] at h1 h2 h3 h4 h5 ha1 ha2
  have hdf : ∀ j, dfAt (bumpDf r.1 r.2) j = dfAt r.1 j + (fsts r.2).count j :=
    fun j => dfAt_bumpDf r.1 r.2 j ha1
  refine ⟨?_, ?_, ?_, ?_, ?_⟩
  · simpa [length_bumpDf] using h1
  · intro j hj
    simpa [wordAt_bumpDf] using h2 j hj
  · intro j
    rw [hdf j]
    have hcount : (fsts r.2).count j ≤ 1 := List.nodup_iff_count_le_one.mp ha2 j
    rcases Nat.lt_or_ge j vocab.length with hj | hj
    · have := h3 j hj
      omega
    · have := h4 j hj
      rw [this]
      have : dfAt vocab j = 0 := dfAt_of_length_le vocab j hj
      omega
  · rw [wordsOf_bumpDf]
    exact sentLoop_nodup maxV _ vocab [] hn
  · intro hle
    simpa [length_bumpDf] using h5 hle

theorem buildGo_shape (maxV maxW : Nat) (sents : List (List Char)) (vocab : List VocabEntry)
    (hn : (wordsOf vocab).Nodup) :
    (buildGo maxV maxW sents vocab).2.length = sents.length ∧
    (∀ j, dfAt (buildGo maxV maxW sents vocab).1 j ≤ dfAt vocab j + sents.length) ∧
    (wordsOf (buildGo maxV maxW sents vocab).1).Nodup ∧
    (vocab.length ≤ maxV → (buildGo maxV maxW sents vocab).1.length ≤ maxV) := by
  induction sents generalizing vocab with
  | nil => exact ⟨rfl, fun j => by simp [buildGo], hn, fun h => h⟩
  | cons s rest ih =>
    obtain ⟨p1, p2, p3, p4, p5⟩ := processSentence_shape maxV maxW vocab s hn
    obtain ⟨i1, i2, i3, i4⟩ := ih (processSentence maxV maxW vocab s).1 p4
    refine ⟨?_, ?_, ?_, ?_⟩
    · simpa [buildGo] using i1
    · intro j
      have ha := i2 j
      have hb := p3 j
      simp only [buildGo, List.length_cons]
      omega
    · simpa [buildGo] using i3
    · intro hle
      simpa [buildGo] using i4 (p5 hle)

/-! ### Exact characterization of the accumulator -/

/-- Nonempty tokens of a token list (the tokens that the `for (t …)` loop does
not skip). -/
def neToks (toks : List (List Char)) : List (List Char) :=
  toks.filter (fun t => ¬ t = [])

theorem count_append_one (l : List (List Char)) (t w : List Char) :
    (l ++ [t]).count w = l.count w + (if w = t then 1 else 0) := by
  rw [List.count_append]
  by_cases h : w = t <;> simp [h, List.count_cons]

theorem wordAt_inj (vocab : List VocabEntry) (j k : Nat) (hn : (wordsOf vocab).Nodup)
    (hj : j < vocab.length) (hk : k < vocab.length) (h : wordAt vocab j = wordAt vocab k) :
    j = k := by
  have h1 := vocab_find_of_wordAt vocab j hj hn
  have h2 := vocab_find_of_wordAt vocab k hk hn
  rw [h] at h1
  rw [h1] at h2
  exact (Option.some.injEq _ _).mp h2

theorem length_addEntry (vocab : List VocabEntry) (tok : List Char) :
    (modifyAt (vocab ++ [⟨tok, 0, 0⟩]) vocab.length incTf).length = vocab.length + 1 := by
  rw [length_modifyAt, List.length_append, List.length_cons, List.length_nil]

theorem wordAt_addEntry (vocab : List VocabEntry) (tok : List Char) (j : Nat)
    (hj : j < vocab.length) :
    wordAt (modifyAt (vocab ++ [⟨tok, 0, 0⟩]) vocab.length incTf) j = wordAt vocab j := by
  unfold wordAt
  rw [getD_modifyAt_ne _ _ _ _ _ (Nat.ne_of_lt hj), List.getD_append _ _ _ _ hj]

theorem wordAt_addEntry_self (vocab : List VocabEntry) (tok : List Char) :
    wordAt (modifyAt (vocab ++ [⟨tok, 0, 0⟩]) vocab.length incTf) vocab.length = tok := by
  unfold wordAt
  rw [getD_modifyAt_self _ _ _ _ (by rw [List.length_append]; simp),
    List.getD_append_right _ _ _ _ (Nat.le_refl _), Nat.sub_self]
  rfl

/-- Invariant of the token loop: `hist` is the list of nonempty tokens
processed so far; the accumulator holds exactly one pair per distinct word of
`hist`, whose count is that word's number of occurrences in `hist`. -/
def SentInv (vocab : List VocabEntry) (acc : List (Nat × Nat))
    (hist : List (List Char)) : Prop :=
  (∀ p ∈ acc, p.1 < vocab.length) ∧
  (fsts acc).Nodup ∧
  (∀ j, j < vocab.length → (j ∈ fsts acc ↔ wordAt vocab j ∈ hist)) ∧
  (∀ p ∈ acc, p.2 = hist.count (wordAt vocab p.1)) ∧
  (∀ w ∈ hist, w ∈ wordsOf vocab)

theorem SentInv_start (vocab : List VocabEntry) : SentInv vocab [] [] := by
  refine ⟨?_, ?_, ?_, ?_, ?_⟩ <;> simp [fsts]

theorem SentInv_step_found (vocab : List VocabEntry) (acc : List (Nat × Nat))
    (hist : List (List Char)) (tok : List Char) (vidx : Nat)
    (hn : (wordsOf vocab).Nodup) (hinv : SentInv vocab acc hist)
    (hf : vocab_find vocab tok = some vidx) :
    SentInv (modifyAt vocab vidx incTf) (accAdd acc vidx) (hist ++ [tok]) := by
  obtain ⟨i1, i2, i3, i4, i5⟩ := hinv
  obtain ⟨hvlt, hvw⟩ := vocab_find_some vocab tok vidx hf
  have hlen : (modifyAt vocab vidx incTf).length = vocab.length := length_modifyAt _ _ _
  have hword : ∀ j, wordAt (modifyAt vocab vidx incTf) j = wordAt vocab j :=
    wordAt_modifyAt_incTf vocab vidx
  have hwords : wordsOf (modifyAt vocab vidx incTf) = wordsOf vocab :=
    wordsOf_modifyAt_incTf vocab vidx
  by_cases hmem : acc.any (fun p => p.1 = vidx)
  · have hacc : accAdd acc vidx = bumpFirst acc vidx := if_pos hmem
    have hfsts : fsts (accAdd acc vidx) = fsts acc := fsts_accAdd_present acc vidx hmem
    have hvin : vidx ∈ fsts acc := (any_fst_iff_mem_fsts acc vidx).mp hmem
    refine ⟨?_, ?_, ?_, ?_, ?_⟩
    · intro p hp
      have : p.1 ∈ fsts (accAdd acc vidx) := List.mem_map_of_mem _ hp
      rw [hfsts] at this
      obtain ⟨q, hq, hqe⟩ := List.mem_map.mp this
      rw [hlen, ← hqe]
      exact i1 q hq
    · rw [hfsts]
      exact i2
    · intro j hj
      rw [hlen] at hj
      rw [hfsts, hword j]
      constructor
      · intro hj'
        exact List.mem_append_left _ ((i3 j hj).mp hj')
      · intro hj'
        rcases List.mem_append.mp hj' with hh | hh
        · exact (i3 j hj).mpr hh
        · simp only [List.mem_singleton] at hh
          have : j = vidx := wordAt_inj vocab j vidx hn hj hvlt (hh.trans hvw.symm)
          exact this ▸ hvin
    · intro p hp
      rw [hacc] at hp
      rcases mem_bumpFirst acc vidx p i2 hp with ⟨hne, hin⟩ | ⟨heq, hle, hin⟩
      · rw [hword, count_append_one, if_neg, Nat.add_zero]
        · exact i4 p hin
        · intro hc
          have hp1 : p.1 < vocab.length := i1 p hin
          exact hne (wordAt_inj vocab p.1 vidx hn hp1 hvlt (hc.trans hvw.symm))
      · rw [hword, heq, hvw, count_append_one, if_pos rfl]
        have := i4 (vidx, p.2 - 1) hin
        simp only at this
        rw [hvw] at this
        omega
    · intro w hw
      rw [hwords]
      rcases List.mem_append.mp hw with hw' | hw'
      · exact i5 w hw'
      · simp only [List.mem_singleton] at hw'
        subst hw'
        exact hvw ▸ wordAt_mem vocab vidx hvlt
  · have hacc : accAdd acc vidx = acc ++ [(vidx, 1)] := if_neg hmem
    have hfsts : fsts (accAdd acc vidx) = fsts acc ++ [vidx] := fsts_accAdd_absent acc vidx hmem
    have hvnot : vidx ∉ fsts acc := fun hc => hmem ((any_fst_iff_mem_fsts acc vidx).mpr hc)
    have htok_not : tok ∉ hist := by
      intro hc
      exact hvnot ((i3 vidx hvlt).mpr (hvw ▸ hc))
    refine ⟨?_, ?_, ?_, ?_, ?_⟩
    · intro p hp
      rw [hacc] at hp
      rw [hlen]
      rcases List.mem_append.mp hp with hp' | hp'
      · exact i1 p hp'
      · simp only [List.mem_singleton] at hp'
        subst hp'
        exact hvlt
    · rw [hfsts]
      simp [List.nodup_append, i2, hvnot]
    · intro j hj
      rw [hlen] at hj
      rw [hfsts, hword j]
      simp only [List.mem_append, List.mem_singleton]
      constructor
      · rintro (hj' | rfl)
        · exact Or.inl ((i3 j hj).mp hj')
        · exact Or.inr (by rw [hvw])
      · rintro (hj' | hj')
        · exact Or.inl ((i3 j hj).mpr hj')
        · right
          exact wordAt_inj vocab j vidx hn hj hvlt (hj'.trans hvw.symm)
    · intro p hp
      rw [hacc] at hp
      rcases List.mem_append.mp hp with hp' | hp'
      · rw [hword, count_append_one, if_neg, Nat.add_zero]
        · exact i4 p hp'
        · intro hc
          have hp1 : p.1 < vocab.length := i1 p hp'
          have : p.1 = vidx := wordAt_inj vocab p.1 vidx hn hp1 hvlt (hc.trans hvw.symm)
          exact hvnot (this ▸ List.mem_map_of_mem _ hp')
      · simp only [List.mem_singleton] at hp'
        subst hp'
        simp only [hword, hvw, count_append_one, if_pos rfl]
        rw [List.count_eq_zero_of_not_mem htok_not]
        simp
    · intro w hw
      rw [hwords]
      rcases List.mem_append.mp hw with hw' | hw'
      · exact i5 w hw'
      · simp only [List.mem_singleton] at hw'
        subst hw'
        exact hvw ▸ wordAt_mem vocab vidx hvlt

theorem SentInv_step_new (vocab : List VocabEntry) (acc : List (Nat × Nat))
    (hist : List (List Char)) (tok : List Char)
    (hn : (wordsOf vocab).Nodup) (hinv : SentInv vocab acc hist)
    (hf : vocab_find vocab tok = none) :
    SentInv (modifyAt (vocab ++ [⟨tok, 0, 0⟩]) vocab.length incTf)
      (accAdd acc vocab.length) (hist ++ [tok]) := by
  obtain ⟨i1, i2, i3, i4, i5⟩ := hinv
  have hnotin : tok ∉ wordsOf vocab := vocab_find_none vocab tok hf
  have htok_not : tok ∉ hist := fun hc => hnotin (i5 tok hc)
  have hmem : ¬ acc.any (fun p => p.1 = vocab.length) := by
    intro hc
    have := (any_fst_iff_mem_fsts acc vocab.length).mp hc
    obtain ⟨q, hq, hqe⟩ := List.mem_map.mp this
    have := i1 q hq
    omega
  have hacc : accAdd acc vocab.length = acc ++ [(vocab.length, 1)] := if_neg hmem
  have hvnot : vocab.length ∉ fsts acc := fun hc =>
    hmem ((any_fst_iff_mem_fsts acc vocab.length).mpr hc)
  have hlen := length_addEntry vocab tok
  have hwords : wordsOf (modifyAt (vocab ++ [⟨tok, 0, 0⟩]) vocab.length incTf) =
      wordsOf vocab ++ [tok] := by
    rw [wordsOf_modifyAt_incTf, wordsOf_append_single]
  refine ⟨?_, ?_, ?_, ?_, ?_⟩
  · intro p hp
    rw [hacc] at hp
    rw [hlen]
    rcases List.mem_append.mp hp with hp' | hp'
    · exact Nat.lt_succ_of_lt (i1 p hp')
    · simp only [List.mem_singleton] at hp'
      subst hp'
      exact Nat.lt_succ_self _
  · rw [fsts_accAdd_absent acc vocab.length hmem]
    simp [List.nodup_append, i2, hvnot]
  · intro j hj
    rw [hlen] at hj
    rw [fsts_accAdd_absent acc vocab.length hmem]
    simp only [List.mem_append, List.mem_singleton]
    rcases Nat.lt_or_ge j vocab.length with hj' | hj'
    · rw [wordAt_addEntry vocab tok j hj']
      constructor
      · rintro (hin | rfl)
        · exact Or.inl ((i3 j hj').mp hin)
        · omega
      · rintro (hin | hin)
        · exact Or.inl ((i3 j hj').mpr hin)
        · exact absurd (hin ▸ wordAt_mem vocab j hj') hnotin
    · have hj'' : j = vocab.length := by omega
      subst hj''
      rw [wordAt_addEntry_self vocab tok]
      simp
  · intro p hp
    rw [hacc] at hp
    rcases List.mem_append.mp hp with hp' | hp'
    · have hp1 : p.1 < vocab.length := i1 p hp'
      rw [wordAt_addEntry vocab tok p.1 hp1, count_append_one, if_neg, Nat.add_zero]
      · exact i4 p hp'
      · intro hc
        exact hnotin (hc ▸ wordAt_mem vocab p.1 hp1)
    · simp only [List.mem_singleton] at hp'
      subst hp'
      simp only [wordAt_addEntry_self vocab tok, count_append_one, if_pos rfl]
      rw [List.count_eq_zero_of_not_mem htok_not]
      simp
  · intro w hw
    rw [hwords]
    rcases List.mem_append.mp hw with hw' | hw'
    · exact List.mem_append_left _ (i5 w hw')
    · simp only [List.mem_singleton] at hw'
      subst hw'
      exact List.mem_append_right _ (List.mem_singleton.mpr rfl)

/-- The token loop run to completion (no vocabulary overflow): the final
accumulator is characterized exactly by the nonempty tokens. -/
theorem sentLoop_master (maxV : Nat) (toks : List (List Char)) (vocab : List VocabEntry)
    (acc : List (Nat × Nat)) (hist : List (List Char))
    (hn : (wordsOf vocab).Nodup) (hinv : SentInv vocab acc hist)
    (hfit : (sentLoop maxV toks vocab acc).1.length < maxV) :
    SentInv (sentLoop maxV toks vocab acc).1 (sentLoop maxV toks vocab acc).2
      (hist ++ neToks toks) := by
  induction toks generalizing vocab acc hist with
  | nil => simpa [sentLoop, neToks] using hinv
  | cons tok rest ih =>
    by_cases ht : tok = []
    · have hstep : sentLoop maxV (tok :: rest) vocab acc = sentLoop maxV rest vocab acc := by
        simp [sentLoop, ht]
      have hne : neToks (tok :: rest) = neToks rest := by
        simp [neToks, ht]
      rw [hstep, hne]
      rw [hstep] at hfit
      exact ih vocab acc hist hn hinv hfit
    · have hne : neToks (tok :: rest) = tok :: neToks rest := by
        simp [neToks, ht]
      cases hf : vocab_find vocab tok with
      | some vidx =>
        have hstep : sentLoop maxV (tok :: rest) vocab acc =
            sentLoop maxV rest (modifyAt vocab vidx incTf) (accAdd acc vidx) := by
          simp [sentLoop, ht, hf]
        rw [hstep]
        rw [hstep] at hfit
        have := ih (modifyAt vocab vidx incTf) (accAdd acc vidx) (hist ++ [tok])
          (by rwa [wordsOf_modifyAt_incTf])
          (SentInv_step_found vocab acc hist tok vidx hn hinv hf) hfit
        rw [hne]
        simpa [List.append_assoc] using this
      | none =>
        by_cases hc : maxV ≤ vocab.length
        · have hstep : sentLoop maxV (tok :: rest) vocab acc = (vocab, acc) := by
            simp [sentLoop, ht, hf, hc]
          rw [hstep] at hfit
          have hv : vocab.length < maxV := hfit
          omega
        · have hstep : sentLoop maxV (tok :: rest) vocab acc =
              sentLoop maxV rest (modifyAt (vocab ++ [⟨tok, 0, 0⟩]) vocab.length incTf)
                (accAdd acc vocab.length) := by
            simp [sentLoop, ht, hf, hc]
          rw [hstep]
          rw [hstep] at hfit
          have hn1 : (wordsOf (modifyAt (vocab ++ [⟨tok, 0, 0⟩]) vocab.length incTf)).Nodup := by
            rw [wordsOf_modifyAt_incTf, wordsOf_append_single]
            simp [List.nodup_append, hn, vocab_find_none vocab tok hf]
          have := ih _ _ (hist ++ [tok]) hn1
            (SentInv_step_new vocab acc hist tok hn hinv hf) hfit
          rw [hne]
          simpa [List.append_assoc] using this

/-! ### Character-level lemmas -/

theorem char_le_iff (a b : Char) : a ≤ b ↔ a.toNat ≤ b.toNat := by
  rw [Char.le_def, UInt32.le_def, BitVec.le_def]
  exact Iff.rfl

theorem toNat_ofNat_valid (n : Nat) (h : n.isValidChar) : (Char.ofNat n).toNat = n := by
  unfold Char.ofNat
  rw [dif_pos h]
  simp [Char.ofNatAux, Char.toNat, UInt32.toNat]

theorem char_eq_of_toNat_eq (a b : Char) (h : a.toNat = b.toNat) : a = b := by
  apply Char.eq_of_val_eq
  apply UInt32.eq_of_toBitVec_eq
  exact BitVec.eq_of_toNat_eq h

theorem toLowerC_toNat (c : Char) :
    (toLowerC c).toNat = if 65 ≤ c.toNat ∧ c.toNat ≤ 90 then c.toNat + 32 else c.toNat := by
  have hA : ('A' : Char).toNat = 65 := by decide
  have hZ : ('Z' : Char).toNat = 90 := by decide
  have hiff : (('A' ≤ c && c ≤ 'Z') = true) ↔ (65 ≤ c.toNat ∧ c.toNat ≤ 90) := by
    simp only [Bool.and_eq_true, decide_eq_true_eq]
    rw [char_le_iff, char_le_iff, hA, hZ]
  unfold toLowerC
  by_cases h : 65 ≤ c.toNat ∧ c.toNat ≤ 90
  · rw [if_pos (hiff.mpr h), if_pos h]
    exact toNat_ofNat_valid (c.toNat + 32) (Or.inl (by omega))
  · rw [if_neg (fun hc => h (hiff.mp hc)), if_neg h]

theorem isAlnumC_iff (c : Char) : isAlnumC c = true ↔
    (48 ≤ c.toNat ∧ c.toNat ≤ 57) ∨ (97 ≤ c.toNat ∧ c.toNat ≤ 122) ∨
    (65 ≤ c.toNat ∧ c.toNat ≤ 90) := by
  have h0 : ('0' : Char).toNat = 48 := by decide
  have h9 : ('9' : Char).toNat = 57 := by decide
  have ha : ('a' : Char).toNat = 97 := by decide
  have hz : ('z' : Char).toNat = 122 := by decide
  have hA : ('A' : Char).toNat = 65 := by decide
  have hZ : ('Z' : Char).toNat = 90 := by decide
  unfold isAlnumC
  simp only [Bool.or_eq_true, Bool.and_eq_true, decide_eq_true_eq]
  rw [char_le_iff, char_le_iff, char_le_iff, char_le_iff, char_le_iff, char_le_iff,
    h0, h9, ha, hz, hA, hZ]
  tauto

theorem isAlnumC_toLowerC (c : Char) (h : isAlnumC c = true) :
    isAlnumC (toLowerC c) = true := by
  rw [isAlnumC_iff] at h ⊢
  rw [toLowerC_toNat]
  by_cases h65 : 65 ≤ c.toNat ∧ c.toNat ≤ 90
  · rw [if_pos h65]
    omega
  · rw [if_neg h65]
    omega

theorem toLowerC_idem (c : Char) : toLowerC (toLowerC c) = toLowerC c := by
  apply char_eq_of_toNat_eq
  have h := toLowerC_toNat c
  have hcond : ¬ (65 ≤ (toLowerC c).toNat ∧ (toLowerC c).toNat ≤ 90) := by
    rw [h]
    by_cases h65 : 65 ≤ c.toNat ∧ c.toNat ≤ 90
    · rw [if_pos h65]
      omega
    · rw [if_neg h65]
      omega
  rw [toLowerC_toNat (toLowerC c), if_neg hcond]

/-! ### Tokenizer lemmas -/

/-- Wellformedness of an emitted token: nonempty, within the word-length
bound, all characters alphanumeric and already lower-case. -/
def goodToken (t : List Char) : Prop :=
  t ≠ [] ∧ t.length ≤ MAX_WORD_LEN - 1 ∧
  ∀ c ∈ t, isAlnumC c = true ∧ toLowerC c = c

theorem tokGo_good (maxW : Nat) (chars : List Char) : ∀ (buf : List Char) (w : Nat),
    (buf.length ≤ MAX_WORD_LEN - 1 ∧ ∀ c ∈ buf, isAlnumC c = true ∧ toLowerC c = c) →
    ∀ t ∈ tokGo maxW chars buf w, goodToken t := by
  induction chars with
  | nil =>
    intro buf w hbuf t ht
    simp only [tokGo] at ht
    by_cases hw : w < maxW
    · rw [if_pos hw] at ht
      by_cases hb : buf = []
      · simp [hb] at ht
      · rw [if_neg hb] at ht
        simp only [List.mem_singleton] at ht
        subst ht
        exact ⟨hb, hbuf.1, hbuf.2⟩
    · rw [if_neg hw] at ht
      simp at ht
  | cons c rest ih =>
    intro buf w hbuf t ht
    simp only [tokGo] at ht
    by_cases hw : w < maxW
    · rw [if_pos hw] at ht
      by_cases hc : isAlnumC c = true
      · rw [if_pos hc] at ht
        by_cases hlen : buf.length < MAX_WORD_LEN - 1
        · rw [if_pos hlen] at ht
          refine ih (buf ++ [toLowerC c]) w ⟨?_, ?_⟩ t ht
          · rw [List.length_append]
            simpa using hlen
          · intro d hd
            rcases List.mem_append.mp hd with hd' | hd'
            · exact hbuf.2 d hd'
            · simp only [List.mem_singleton] at hd'
              subst hd'
              exact ⟨isAlnumC_toLowerC c hc, toLowerC_idem c⟩
        · rw [if_neg hlen] at ht
          exact ih buf w hbuf t ht
      · rw [if_neg hc] at ht
        by_cases hb : buf = []
        · rw [if_pos hb] at ht
          exact ih [] w ⟨by simp, by simp⟩ t ht
        · rw [if_neg hb] at ht
          rcases List.mem_cons.mp ht with rfl | ht'
          · exact ⟨hb, hbuf.1, hbuf.2⟩
          · exact ih [] (w + 1) ⟨by simp, by simp⟩ t ht'
    · rw [if_neg hw] at ht
      simp at ht

/-- Every token produced by `tokenize_sentence` is wellformed. -/
theorem tokenize_sentence_good (sent : List Char) (maxW : Nat) :
    ∀ t ∈ tokenize_sentence sent maxW, goodToken t :=
  tokGo_good maxW sent [] 0 ⟨by simp, by simp⟩

theorem neToks_tokenize (sent : List Char) (maxW : Nat) :
    neToks (tokenize_sentence sent maxW) = tokenize_sentence sent maxW := by
  apply List.filter_eq_self.mpr
  intro t ht
  have := (tokenize_sentence_good sent maxW t ht).1
  simpa using this

theorem tokGo_length_le (maxW : Nat) (chars : List Char) : ∀ (buf : List Char) (w : Nat),
    (tokGo maxW chars buf w).length + w ≤ maxW ∨ tokGo maxW chars buf w = [] := by
  induction chars with
  | nil =>
    intro buf w
    simp only [tokGo]
    by_cases hw : w < maxW
    · rw [if_pos hw]
      by_cases hb : buf = []
      · simp [hb]
      · rw [if_neg hb]
        left
        simp only [List.length_cons, List.length_nil]
        omega
    · rw [if_neg hw]
      simp
  | cons c rest ih =>
    intro buf w
    simp only [tokGo]
    by_cases hw : w < maxW
    · rw [if_pos hw]
      by_cases hc : isAlnumC c = true
      · rw [if_pos hc]
        exact ih _ w
      · rw [if_neg hc]
        by_cases hb : buf = []
        · rw [if_pos hb]
          exact ih [] w
        · rw [if_neg hb]
          rcases ih [] (w + 1) with h | h
          · left
            simp only [List.length_cons]
            omega
          · left
            rw [h]
            simp only [List.length_cons, List.length_nil]
            omega
    · rw [if_neg hw]
      simp

/-- The tokenizer never emits more than `maxW` tokens. -/
theorem tokenize_length_le (sent : List Char) (maxW : Nat) :
    (tokenize_sentence sent maxW).length ≤ maxW := by
  rcases tokGo_length_le maxW sent [] 0 with h | h
  · unfold tokenize_sentence
    omega
  · unfold tokenize_sentence
    rw [h]
    simp

/-- Buffer accumulation over a run of alphanumeric characters. -/
def fillBuf (buf chars : List Char) : List Char :=
  chars.foldl (fun b c => if b.length < MAX_WORD_LEN - 1 then b ++ [toLowerC c] else b) buf

theorem tokGo_run (maxW : Nat) (chars : List Char) : ∀ (buf : List Char) (w : Nat),
    (∀ c ∈ chars, isAlnumC c = true) → w < maxW →
    tokGo maxW chars buf w =
      (if fillBuf buf chars = [] then [] else [fillBuf buf chars]) := by
  induction chars with
  | nil =>
    intro buf w _ hw
    simp only [tokGo, fillBuf, List.foldl_nil]
    rw [if_pos hw]
  | cons c rest ih =>
    intro buf w hall hw
    have hc : isAlnumC c = true := hall c (List.mem_cons_self c rest)
    simp only [tokGo, fillBuf, List.foldl_cons]
    rw [if_pos hw, if_pos hc]
    exact ih _ w (fun d hd => hall d (List.mem_cons_of_mem c hd)) hw

theorem fillBuf_take (chars : List Char) : ∀ (buf : List Char),
    buf.length ≤ MAX_WORD_LEN - 1 →
    fillBuf buf chars = buf ++ (chars.take (MAX_WORD_LEN - 1 - buf.length)).map toLowerC := by
  induction chars with
  | nil =>
    intro buf _
    simp [fillBuf]
  | cons c rest ih =>
    intro buf hbuf
    simp only [fillBuf, List.foldl_cons]
    by_cases hlen : buf.length < MAX_WORD_LEN - 1
    · rw [if_pos hlen]
      have := ih (buf ++ [toLowerC c]) (by rw [List.length_append]; simpa using hlen)
      unfold fillBuf at this
      rw [this]
      have htake : MAX_WORD_LEN - 1 - buf.length = (MAX_WORD_LEN - 1 - (buf ++ [toLowerC c]).length) + 1 := by
        rw [List.length_append]
        simp only [List.length_cons, List.length_nil]
        omega
      rw [htake, List.take_succ_cons, List.map_cons, List.append_assoc]
      rfl
    · rw [if_neg hlen]
      have hz : MAX_WORD_LEN - 1 - buf.length = 0 := by omega
      have h2 := ih buf hbuf
      unfold fillBuf at h2
      rw [h2, hz]
      simp

/-! ### Exactness of one sentence's processing -/

theorem count_indicator_of_nodup (l : List Nat) (j : Nat) (hnd : l.Nodup) :
    l.count j = if j ∈ l then 1 else 0 := by
  by_cases h : j ∈ l
  · rw [if_pos h]
    exact List.count_eq_one_of_mem hnd h
  · rw [if_neg h]
    exact List.count_eq_zero_of_not_mem h

/-- Without vocabulary overflow, processing one sentence bumps the df of every
pre-existing entry by exactly one if its word occurs among the sentence's
tokens (and by zero otherwise), gives every entry created by this sentence a
df equal to the indicator of its word's presence, and stores as counts the
exact numbers of occurrences of each word among the tokens. -/
theorem processSentence_exact (maxV maxW : Nat) (vocab : List VocabEntry) (sent : List Char)
    (hn : (wordsOf vocab).Nodup)
    (hfit : (processSentence maxV maxW vocab sent).1.length < maxV) :
    (∀ j, j < vocab.length →
      dfAt (processSentence maxV maxW vocab sent).1 j =
        dfAt vocab j +
          (if wordAt vocab j ∈ tokenize_sentence sent maxW then 1 else 0)) ∧
    (∀ j, vocab.length ≤ j →
      dfAt (processSentence maxV maxW vocab sent).1 j =
        (if wordAt (processSentence maxV maxW vocab sent).1 j ∈ tokenize_sentence sent maxW
          then 1 else 0)) ∧
    (∀ p ∈ (processSentence maxV maxW vocab sent).2,
      p.1 < (processSentence maxV maxW vocab sent).1.length ∧
      p.2 = (tokenize_sentence sent maxW).count
        (wordAt (processSentence maxV maxW vocab sent).1 p.1)) := by
  have hres : (processSentence maxV maxW vocab sent).1 =
      bumpDf (sentLoop maxV (tokenize_sentence sent maxW) vocab []).1
        (sentLoop maxV (tokenize_sentence sent maxW) vocab []).2 := rfl
  have hvec : (processSentence maxV maxW vocab sent).2 =
      (sentLoop maxV (tokenize_sentence sent maxW) vocab []).2 := rfl
  set toks := tokenize_sentence sent maxW with htoks
  set r := sentLoop maxV toks vocab [] with hr
  have hfit' : r.1.length < maxV := by
    rw [hres, length_bumpDf] at hfit
    exact hfit
  have hinv := sentLoop_master maxV toks vocab [] [] hn (SentInv_start vocab) hfit'
  rw [← hr] at hinv
  have hne : ([] : List (List Char)) ++ neToks toks = toks := by
    rw [List.nil_append, htoks, neToks_tokenize]
  rw [hne] at hinv
  obtain ⟨i1, i2, i3, i4, i5⟩ := hinv
  obtain ⟨s1, s2, s3, s4, s5⟩ := sentLoop_shape maxV toks vocab []
  rw [← hr] at s1 s2 s3 s4 s5
  have hdfb : ∀ j, dfAt (bumpDf r.1 r.2) j = dfAt r.1 j + (fsts r.2).count j :=
    fun j => dfAt_bumpDf r.1 r.2 j i1
  have hcnt : ∀ j, (fsts r.2).count j = if j ∈ fsts r.2 then 1 else 0 :=
    fun j => count_indicator_of_nodup (fsts r.2) j i2
  refine ⟨?_, ?_, ?_⟩
  · intro j hj
    rw [hres, hdfb j, hcnt j, s3 j hj]
    congr 1
    have hj' : j < r.1.length := Nat.lt_of_lt_of_le hj s1
    exact if_congr ((i3 j hj').trans (by rw [s2 j hj])) rfl rfl
  · intro j hj
    rw [hres, hdfb j, hcnt j, s4 j hj, Nat.zero_add]
    have hw : wordAt (bumpDf r.1 r.2) j = wordAt r.1 j := wordAt_bumpDf r.1 r.2 j
    rw [hw]
    rcases Nat.lt_or_ge j r.1.length with hj' | hj'
    · exact if_congr (i3 j hj') rfl rfl
    · have h1 : j ∉ fsts r.2 := by
        intro hc
        obtain ⟨q, hq, hqe⟩ := List.mem_map.mp hc
        have := i1 q hq
        omega
      have h2 : wordAt r.1 j ∉ toks := by
        have : wordAt r.1 j = [] := by
          unfold wordAt
          rw [List.getD_eq_default _ _ hj']
          rfl
        rw [this]
        intro hc
        exact (tokenize_sentence_good sent maxW [] (htoks ▸ hc)).1 rfl
      rw [if_neg h1, if_neg h2]
  · intro p hp
    rw [hvec] at hp
    have hp1 : p.1 < r.1.length := i1 p hp
    constructor
    · rw [hres, length_bumpDf]
      exact hp1
    · rw [hres, wordAt_bumpDf]
      exact i4 p hp

/-! ### Corpus-level composition -/

theorem buildGo_extend (maxV maxW : Nat) (sents : List (List Char)) (vocab : List VocabEntry)
    (hn : (wordsOf vocab).Nodup) :
    vocab.length ≤ (buildGo maxV maxW sents vocab).1.length ∧
    (∀ j, j < vocab.length →
      wordAt (buildGo maxV maxW sents vocab).1 j = wordAt vocab j) := by
  induction sents generalizing vocab with
  | nil => exact ⟨Nat.le_refl _, fun j _ => rfl⟩
  | cons s rest ih =>
    obtain ⟨p1, p2, _, p4, _⟩ := processSentence_shape maxV maxW vocab s hn
    obtain ⟨e1, e2⟩ := ih (processSentence maxV maxW vocab s).1 p4
    constructor
    · calc vocab.length ≤ (processSentence maxV maxW vocab s).1.length := p1
        _ ≤ (buildGo maxV maxW rest (processSentence maxV maxW vocab s).1).1.length := e1
        _ = (buildGo maxV maxW (s :: rest) vocab).1.length := by simp [buildGo]
    · intro j hj
      have h1 : wordAt (buildGo maxV maxW (s :: rest) vocab).1 j =
          wordAt (buildGo maxV maxW rest (processSentence maxV maxW vocab s).1).1 j := by
        simp [buildGo]
      rw [h1, e2 j (Nat.lt_of_lt_of_le hj p1), p2 j hj]

/-- Without vocabulary overflow, every stored pair of every sentence's vector
holds the exact occurrence count, in that sentence's token list, of the final
vocabulary word it refers to. -/
theorem buildGo_count_exact (maxV maxW : Nat) (sents : List (List Char))
    (vocab : List VocabEntry) (hn : (wordsOf vocab).Nodup)
    (hfit : (buildGo maxV maxW sents vocab).1.length < maxV) :
    ∀ i, i < sents.length →
      ∀ p ∈ (buildGo maxV maxW sents vocab).2.getD i [],
        p.1 < (buildGo maxV maxW sents vocab).1.length ∧
        p.2 = (tokenize_sentence (sents.getD i []) maxW).count
          (wordAt (buildGo maxV maxW sents vocab).1 p.1) := by
  induction sents generalizing vocab with
  | nil =>
    intro i hi
    simp at hi
  | cons s rest ih =>
    obtain ⟨p1, p2, _, p4, _⟩ := processSentence_shape maxV maxW vocab s hn
    have hmidfit : (processSentence maxV maxW vocab s).1.length < maxV := by
      obtain ⟨e1, _⟩ := buildGo_extend maxV maxW rest (processSentence maxV maxW vocab s).1 p4
      have hstep : (buildGo maxV maxW (s :: rest) vocab).1 =
          (buildGo maxV maxW rest (processSentence maxV maxW vocab s).1).1 := by
        simp [buildGo]
      rw [hstep] at hfit
      omega
    have hrestfit : (buildGo maxV maxW rest (processSentence maxV maxW vocab s).1).1.length
        < maxV := by
      have hstep : (buildGo maxV maxW (s :: rest) vocab).1 =
          (buildGo maxV maxW rest (processSentence maxV maxW vocab s).1).1 := by
        simp [buildGo]
      rwa [hstep] at hfit
    intro i hi
    have hstep1 : (buildGo maxV maxW (s :: rest) vocab).1 =
        (buildGo maxV maxW rest (processSentence maxV maxW vocab s).1).1 := by
      simp [buildGo]
    have hstep2 : (buildGo maxV maxW (s :: rest) vocab).2 =
        (processSentence maxV maxW vocab s).2 ::
          (buildGo maxV maxW rest (processSentence maxV maxW vocab s).1).2 := by
      simp [buildGo]
    cases i with
    | zero =>
      intro p hp
      rw [hstep2, List.getD_cons_zero] at hp
      obtain ⟨_, _, hx⟩ := processSentence_exact maxV maxW vocab s hn hmidfit
      obtain ⟨hxa, hxb⟩ := hx p hp
      obtain ⟨e1, e2⟩ := buildGo_extend maxV maxW rest (processSentence maxV maxW vocab s).1 p4
      constructor
      · rw [hstep1]
        exact Nat.lt_of_lt_of_le hxa e1
      · rw [hstep1, e2 p.1 hxa, List.getD_cons_zero]
        exact hxb
    | succ m =>
      intro p hp
      rw [hstep2, List.getD_cons_succ] at hp
      have hm : m < rest.length := by simpa using hi
      obtain ⟨hxa, hxb⟩ := ih (processSentence maxV maxW vocab s).1 p4 hrestfit m hm p hp
      constructor
      · rw [hstep1]
        exact hxa
      · rw [hstep1, List.getD_cons_succ]
        exact hxb

/-- Every entry of the final vocabulary has df at most the number of
sentences. -/
theorem buildGo_df_le (maxV maxW : Nat) (sents : List (List Char)) :
    ∀ e ∈ (buildGo maxV maxW sents []).1, e.df ≤ sents.length := by
  intro e he
  obtain ⟨j, hj, hje⟩ := List.mem_iff_getElem.mp he
  obtain ⟨_, h2, _, _⟩ := buildGo_shape maxV maxW sents [] (by simp [wordsOf])
  have hd : dfAt (buildGo maxV maxW sents []).1 j = e.df := by
    unfold dfAt
    rw [List.getD_eq_getElem _ _ hj, hje]
  have := h2 j
  rw [hd] at this
  have hz : dfAt ([] : List VocabEntry) j = 0 := rfl
  omega

/-! ### Sentence splitter lemmas -/

theorem fishTrim_all_space (s : List Char) (h : ∀ c ∈ s, isSpaceC c = true) :
    fishTrim s = [] := by
  unfold fishTrim
  have h1 : s.dropWhile isSpaceC = [] := List.dropWhile_eq_nil_iff.mpr h
  rw [h1]
  simp

theorem splitGo_length_le (maxS : Nat) : ∀ (n : Nat) (rest span : List Char) (count : Nat),
    rest.length ≤ n → (splitGo maxS rest span count).length ≤ maxS - count := by
  intro n
  induction n with
  | zero =>
    intro rest span count hn
    have hrest : rest = [] := List.eq_nil_of_length_eq_zero (Nat.le_zero.mp hn)
    subst hrest
    unfold splitGo
    by_cases hc : count < maxS
    · rw [if_pos hc]
      by_cases ht : fishTrim span = []
      · rw [if_pos ht]
        simp
      · rw [if_neg ht]
        simp only [List.length_singleton]
        omega
    · rw [if_neg hc]
      simp
  | succ m ih =>
    intro rest span count hn
    cases rest with
    | nil =>
      unfold splitGo
      by_cases hc : count < maxS
      · rw [if_pos hc]
        by_cases ht : fishTrim span = []
        · rw [if_pos ht]
          simp
        · rw [if_neg ht]
          simp only [List.length_singleton]
          omega
      · rw [if_neg hc]
        simp
    | cons c rest' =>
      unfold splitGo
      by_cases hc : count < maxS
      · rw [if_pos hc]
        simp only
        by_cases hb : isBoundaryC c = true
        · rw [if_pos hb]
          have hdw : (rest'.dropWhile isSpaceC).length ≤ m := by
            have := dropWhile_length_le isSpaceC rest'
            simp only [List.length_cons] at hn
            omega
          by_cases ht : fishTrim (span ++ [c]) = []
          · rw [if_pos ht]
            exact ih _ [] count hdw
          · rw [if_neg ht]
            simp only [List.length_cons]
            have := ih _ [] (count + 1) hdw
            omega
        · rw [if_neg hb]
          apply ih rest' (span ++ [c]) count
          simp only [List.length_cons] at hn
          omega
      · rw [if_neg hc]
        simp

/-- `split_sentences` never returns more than `maxS` sentences. -/
theorem split_sentences_length_le (content : List Char) (maxS : Nat) :
    (split_sentences content maxS).length ≤ maxS := by
  have := splitGo_length_le maxS content.length content [] 0 (Nat.le_refl _)
  simpa [split_sentences] using this

/-- On all-whitespace input (including empty input) the splitter emits no
sentences. -/
theorem splitGo_all_space (maxS : Nat) : ∀ (n : Nat) (rest span : List Char) (count : Nat),
    rest.length ≤ n → (∀ c ∈ rest, isSpaceC c = true) → (∀ c ∈ span, isSpaceC c = true) →
    splitGo maxS rest span count = [] := by
  intro n
  induction n with
  | zero =>
    intro rest span count hn hr hs
    have hrest : rest = [] := List.eq_nil_of_length_eq_zero (Nat.le_zero.mp hn)
    subst hrest
    unfold splitGo
    by_cases hc : count < maxS
    · rw [if_pos hc, if_pos (fishTrim_all_space span hs)]
    · rw [if_neg hc]
  | succ m ih =>
    intro rest span count hn hr hs
    cases rest with
    | nil =>
      unfold splitGo
      by_cases hc : count < maxS
      · rw [if_pos hc, if_pos (fishTrim_all_space span hs)]
      · rw [if_neg hc]
    | cons c rest' =>
      have hcsp : isSpaceC c = true := hr c (List.mem_cons_self c rest')
      have hrest' : ∀ d ∈ rest', isSpaceC d = true :=
        fun d hd => hr d (List.mem_cons_of_mem c hd)
      have hspan' : ∀ d ∈ span ++ [c], isSpaceC d = true := by
        intro d hd
        rcases List.mem_append.mp hd with hd' | hd'
        · exact hs d hd'
        · simp only [List.mem_singleton] at hd'
          subst hd'
          exact hcsp
      have hdw : (rest'.dropWhile isSpaceC).length ≤ m := by
        have := dropWhile_length_le isSpaceC rest'
        simp only [List.length_cons] at hn
        omega
      have hdwall : ∀ d ∈ rest'.dropWhile isSpaceC, isSpaceC d = true :=
        fun d hd => hrest' d (List.dropWhile_sublist isSpaceC |>.mem hd)
      unfold splitGo
      by_cases hc : count < maxS
      · rw [if_pos hc]
        simp only
        by_cases hb : isBoundaryC c = true
        · rw [if_pos hb, if_pos (fishTrim_all_space (span ++ [c]) hspan')]
          exact ih _ [] count hdw hdwall (by simp)
        · rw [if_neg hb]
          exact ih rest' (span ++ [c]) count (by simp only [List.length_cons] at hn; omega)
            hrest' hspan'
      · rw [if_neg hc]

theorem split_sentences_all_space (content : List Char) (maxS : Nat)
    (h : ∀ c ∈ content, isSpaceC c = true) : split_sentences content maxS = [] :=
  splitGo_all_space maxS content.length content [] 0 (Nat.le_refl _) h (by simp)

/-! ### Selection lemmas -/

/-- A sentence index still eligible in a selection round. -/
def isCand (scores : List ℝ) (sel : List Bool) (j : Nat) : Prop :=
  j < scores.length ∧ sel.getD j false = false

theorem pickFrom_spec (scores : List ℝ) (sel : List Bool) : ∀ (fuel i : Nat)
    (best : Option Nat) (bestScore : ℝ),
    scores.length - i ≤ fuel →
    ((best = none ∧ bestScore = -1e300 ∧
        ∀ j, j < i → isCand scores sel j → scores.getD j 0 ≤ -1e300) ∨
      (∃ b, best = some b ∧ b < i ∧ isCand scores sel b ∧ bestScore = scores.getD b 0 ∧
        (∀ j, j < i → isCand scores sel j → scores.getD j 0 ≤ scores.getD b 0) ∧
        (∀ j, j < b → isCand scores sel j → scores.getD j 0 < scores.getD b 0))) →
    ((pickFrom scores sel i best bestScore = none ∧
        ∀ j, isCand scores sel j → scores.getD j 0 ≤ -1e300) ∨
      (∃ b, pickFrom scores sel i best bestScore = some b ∧ isCand scores sel b ∧
        (∀ j, isCand scores sel j → scores.getD j 0 ≤ scores.getD b 0) ∧
        (∀ j, j < b → isCand scores sel j → scores.getD j 0 < scores.getD b 0))) := by
  intro fuel
  induction fuel with
  | zero =>
    intro i best bestScore hfuel hinv
    have hle : scores.length ≤ i := by omega
    unfold pickFrom
    rw [if_neg (by omega)]
    rcases hinv with ⟨hb, hs, hall⟩ | ⟨b, hb, hbi, hcand, hs, hall, hstrict⟩
    · subst hb
      exact Or.inl ⟨rfl, fun j hj => hall j (by exact Nat.lt_of_lt_of_le hj.1 hle) hj⟩
    · subst hb
      exact Or.inr ⟨b, rfl, hcand,
        fun j hj => hall j (Nat.lt_of_lt_of_le hj.1 hle) hj, hstrict⟩
  | succ m ih =>
    intro i best bestScore hfuel hinv
    by_cases hi : i < scores.length
    · have hfuel' : scores.length - (i + 1) ≤ m := by omega
      unfold pickFrom
      rw [if_pos hi]
      by_cases hsel : sel.getD i false
      · rw [if_pos hsel]
        apply ih (i + 1) best bestScore hfuel'
        have hnc : ¬ isCand scores sel i := fun hc => by
          rw [hc.2] at hsel
          exact Bool.false_ne_true hsel
        rcases hinv with ⟨hb, hs, hall⟩ | ⟨b, hb, hbi, hcand, hs, hall, hstrict⟩
        · refine Or.inl ⟨hb, hs, fun j hj hc => ?_⟩
          rcases Nat.lt_or_ge j i with hj' | hj'
          · exact hall j hj' hc
          · have : j = i := by omega
            exact absurd (this ▸ hc) hnc
        · refine Or.inr ⟨b, hb, by omega, hcand, hs, fun j hj hc => ?_, hstrict⟩
          rcases Nat.lt_or_ge j i with hj' | hj'
          · exact hall j hj' hc
          · have : j = i := by omega
            exact absurd (this ▸ hc) hnc
      · rw [if_neg hsel]
        have hci : isCand scores sel i := ⟨hi, by simpa using hsel⟩
        by_cases hgt : bestScore < scores.getD i 0
        · rw [if_pos hgt]
          apply ih (i + 1) (some i) (scores.getD i 0) hfuel'
          refine Or.inr ⟨i, rfl, Nat.lt_succ_self i, hci, rfl, ?_, ?_⟩
          · intro j hj hc
            rcases Nat.lt_or_ge j i with hj' | hj'
            · rcases hinv with ⟨_, hs, hall⟩ | ⟨b, _, hbi, _, hs, hall, _⟩
              · have := hall j hj' hc
                rw [hs] at hgt
                linarith
              · have := hall j hj' hc
                rw [hs] at hgt
                linarith
            · have : j = i := by omega
              subst this
              exact le_refl _
          · intro j hj hc
            rcases hinv with ⟨_, hs, hall⟩ | ⟨b, _, hbi, _, hs, hall, _⟩
            · have := hall j hj hc
              rw [hs] at hgt
              linarith
            · have := hall j hj hc
              rw [hs] at hgt
              linarith
        · rw [if_neg hgt]
          apply ih (i + 1) best bestScore hfuel'
          have hle : scores.getD i 0 ≤ bestScore := le_of_not_lt hgt
          rcases hinv with ⟨hb, hs, hall⟩ | ⟨b, hb, hbi, hcand, hs, hall, hstrict⟩
          · refine Or.inl ⟨hb, hs, fun j hj hc => ?_⟩
            rcases Nat.lt_or_ge j i with hj' | hj'
            · exact hall j hj' hc
            · have : j = i := by omega
              subst this
              rw [hs] at hle
              exact hle
          · refine Or.inr ⟨b, hb, by omega, hcand, hs, fun j hj hc => ?_, hstrict⟩
            rcases Nat.lt_or_ge j i with hj' | hj'
            · exact hall j hj' hc
            · have : j = i := by omega
              subst this
              rw [hs] at hle
              exact hle
    · unfold pickFrom
      rw [if_neg hi]
      have hle : scores.length ≤ i := Nat.le_of_not_lt hi
      rcases hinv with ⟨hb, hs, hall⟩ | ⟨b, hb, hbi, hcand, hs, hall, hstrict⟩
      · subst hb
        exact Or.inl ⟨rfl, fun j hj => hall j (Nat.lt_of_lt_of_le hj.1 hle) hj⟩
      · subst hb
        exact Or.inr ⟨b, rfl, hcand,
          fun j hj => hall j (Nat.lt_of_lt_of_le hj.1 hle) hj, hstrict⟩

/-- One selection round, when some eligible sentence beats the `-1e300`
sentinel: the scan returns the least-index maximum among eligible sentences. -/
theorem pickBest_spec (scores : List ℝ) (sel : List Bool)
    (hex : ∃ j, isCand scores sel j ∧ -1e300 < scores.getD j 0) :
    ∃ b, pickBest scores sel = some b ∧ isCand scores sel b ∧
      (∀ j, isCand scores sel j → scores.getD j 0 ≤ scores.getD b 0) ∧
      (∀ j, j < b → isCand scores sel j → scores.getD j 0 < scores.getD b 0) := by
  have h := pickFrom_spec scores sel scores.length 0 none (-1e300) (by omega)
    (Or.inl ⟨rfl, rfl, fun j hj => by omega⟩)
  rcases h with ⟨_, hall⟩ | h
  · obtain ⟨j, hc, hgt⟩ := hex
    have := hall j hc
    linarith
  · exact h

/-- With every eligible index exhausted, the scan keeps the sentinel and
reports no pick. -/
theorem pickBest_none (scores : List ℝ) (sel : List Bool)
    (h : ∀ j, ¬ isCand scores sel j) : pickBest scores sel = none := by
  have hh := pickFrom_spec scores sel scores.length 0 none (-1e300) (by omega)
    (Or.inl ⟨rfl, rfl, fun j hj => by omega⟩)
  rcases hh with ⟨hn, _⟩ | ⟨b, _, hcand, _, _⟩
  · exact hn
  · exact absurd hcand (h b)

theorem count_true_set (sel : List Bool) : ∀ (b : Nat), b < sel.length →
    sel.getD b false = false →
    (sel.set b true).count true = sel.count true + 1 := by
  induction sel with
  | nil => intro b hb; simp at hb
  | cons x xs ih =>
    intro b hb hf
    cases b with
    | zero =>
      simp only [List.getD_cons_zero] at hf
      subst hf
      simp [List.count_cons]
    | succ m =>
      simp only [List.getD_cons_succ] at hf
      have hm : m < xs.length := by simpa using hb
      simp only [List.set_cons_succ, List.count_cons]
      rw [ih m hm hf]
      omega

theorem exists_false_of_count_lt (sel : List Bool) (h : sel.count true < sel.length) :
    ∃ j, j < sel.length ∧ sel.getD j false = false := by
  induction sel with
  | nil => simp at h
  | cons x xs ih =>
    cases x
    · exact ⟨0, by simp, by simp⟩
    · have hx : xs.count true < xs.length := by
        simp only [List.count_cons, List.length_cons] at h
        simpa using h
      obtain ⟨j, hj, he⟩ := ih hx
      exact ⟨j + 1, by simpa using hj, by simpa using he⟩

theorem all_true_of_count_eq (sel : List Bool) (h : sel.count true = sel.length) :
    ∀ j, j < sel.length → sel.getD j false = true := by
  induction sel with
  | nil => intro j hj; simp at hj
  | cons x xs ih =>
    intro j hj
    cases x
    · exfalso
      have h1 : xs.count true ≤ xs.length := List.count_le_length _ _
      simp only [List.count_cons, List.length_cons] at h
      simp at h
      omega
    · cases j with
      | zero => simp
      | succ m =>
        have hx : xs.count true = xs.length := by
          simp only [List.count_cons, List.length_cons] at h
          simpa using h
        simp only [List.getD_cons_succ]
        exact ih hx m (by simpa using hj)

theorem selectRounds_length (scores : List ℝ) : ∀ (K : Nat) (sel : List Bool),
    (selectRounds scores K sel).length = sel.length := by
  intro K
  induction K with
  | zero => intro sel; rfl
  | succ k ih =>
    intro sel
    simp only [selectRounds]
    cases hp : pickBest scores sel with
    | none => exact ih sel
    | some b => rw [ih (sel.set b true), List.length_set]

/-- The greedy loop selects exactly `min (already + K) n` sentences when all
scores beat the sentinel. -/
theorem selectRounds_count (scores : List ℝ)
    (hsc : ∀ j, j < scores.length → -1e300 < scores.getD j 0) :
    ∀ (K : Nat) (sel : List Bool), sel.length = scores.length →
    (selectRounds scores K sel).count true = min (sel.count true + K) sel.length := by
  intro K
  induction K with
  | zero =>
    intro sel hlen
    have := List.count_le_length true sel
    simp only [selectRounds, Nat.add_zero]
    omega
  | succ k ih =>
    intro sel hlen
    simp only [selectRounds]
    rcases Nat.lt_or_ge (sel.count true) sel.length with hlt | hge
    · obtain ⟨j, hj, hf⟩ := exists_false_of_count_lt sel hlt
      have hex : ∃ j, isCand scores sel j ∧ -1e300 < scores.getD j 0 := by
        refine ⟨j, ⟨by omega, hf⟩, hsc j (by omega)⟩
      obtain ⟨b, hpick, hcand, _, _⟩ := pickBest_spec scores sel hex
      rw [hpick]
      have hblen : b < sel.length := by
        have := hcand.1
        omega
      have := ih (sel.set b true) (by rw [List.length_set]; exact hlen)
      rw [this, count_true_set sel b hblen hcand.2, List.length_set]
      omega
    · have heq : sel.count true = sel.length :=
        Nat.le_antisymm (List.count_le_length true sel) hge
      have hnone : pickBest scores sel = none := by
        apply pickBest_none
        intro j hc
        have hjs : j < sel.length := by
          have := hc.1
          omega
        have := all_true_of_count_eq sel heq j hjs
        rw [hc.2] at this
        exact Bool.false_ne_true this
      rw [hnone]
      rw [ih sel hlen]
      omega

theorem outOrder_length (sel : List Bool) : (outOrder sel).length = sel.count true := by
  induction sel with
  | nil => rfl
  | cons x xs ih =>
    unfold outOrder at ih ⊢
    rw [List.length_cons, List.range_succ_eq_map]
    rw [List.filter_cons]
    have hmap : (List.filter (fun i => xs.getD i false)
        (List.range xs.length)).length =
        (List.filter (fun i => (x :: xs).getD i false)
          ((List.range xs.length).map Nat.succ)).length := by
      rw [List.filter_map]
      rw [List.length_map]
      congr 1
    simp only [List.getD_cons_zero, List.count_cons]
    cases x
    · simp only [Bool.false_eq_true, if_false]
      rw [← hmap, ih]
      simp
    · simp only [if_true]
      rw [List.length_cons, ← hmap, ih]
      simp

theorem outOrder_sorted (sel : List Bool) : (outOrder sel).Pairwise (· < ·) := by
  unfold outOrder
  exact (List.pairwise_lt_range sel.length).sublist (List.filter_sublist _)

/-! ### Score lemmas -/

theorem foldl_add_eq (f : Nat × Nat → ℝ) (l : List (Nat × Nat)) (a : ℝ) :
    l.foldl (fun s p => s + f p) a = a + (l.map f).sum := by
  induction l generalizing a with
  | nil => simp
  | cons p ps ih =>
    simp only [List.foldl_cons, List.map_cons, List.sum_cons, ih, add_assoc]

/-- The score accumulation loop computes the sum of `tf × idf` over the
sentence's stored pair list. -/
theorem sentScore_eq_sum (idf : Nat → ℝ) (vec : List (Nat × Nat)) :
    sentScore idf vec = (vec.map (fun p => (p.2 : ℝ) * idf p.1)).sum := by
  unfold sentScore
  rw [foldl_add_eq]
  simp

theorem idfTable_ge_neg_one (nsent : Nat) (vocab : List VocabEntry) (v : Nat)
    (h1 : 1 ≤ nsent) (hdf : dfAt vocab v ≤ nsent) :
    -1 ≤ idfTable nsent vocab v := by
  have hdfR : (dfAt vocab v : ℝ) ≤ (nsent : ℝ) := Nat.cast_le.mpr hdf
  have h1R : (1 : ℝ) ≤ (nsent : ℝ) := by exact_mod_cast h1
  have harg : (1 : ℝ) / 2 ≤ (nsent : ℝ) / (1 + (dfAt vocab v : ℝ)) := by
    rw [div_le_div_iff (by norm_num) (by positivity)]
    nlinarith
  have hlog := Real.log_le_log (by norm_num : (0 : ℝ) < 1 / 2) harg
  have h2 : Real.log (1 / 2) = -Real.log 2 := by
    rw [one_div, Real.log_inv]
  have h3 : Real.log 2 ≤ 1 := by
    have h4 : (2 : ℝ) < Real.exp 1 := lt_trans (by norm_num) Real.exp_one_gt_d9
    have h5 := Real.log_lt_log (by norm_num : (0 : ℝ) < 2) h4
    rw [Real.log_exp] at h5
    linarith
  unfold idfTable
  calc (-1 : ℝ) ≤ -Real.log 2 := by linarith
    _ = Real.log (1 / 2) := h2.symm
    _ ≤ Real.log ((nsent : ℝ) / (1 + (dfAt vocab v : ℝ))) := hlog

theorem idfTable_nonneg (nsent : Nat) (vocab : List VocabEntry) (v : Nat)
    (h : dfAt vocab v + 1 ≤ nsent) : 0 ≤ idfTable nsent vocab v := by
  apply Real.log_nonneg
  rw [le_div_iff (by positivity)]
  have hR : (dfAt vocab v : ℝ) + 1 ≤ (nsent : ℝ) := by exact_mod_cast h
  linarith

theorem sum_tf_idf_ge (vec : List (Nat × Nat)) (idf : Nat → ℝ)
    (hidf : ∀ p ∈ vec, -1 ≤ idf p.1) :
    -(sumSnd vec : ℝ) ≤ (vec.map (fun p => (p.2 : ℝ) * idf p.1)).sum := by
  induction vec with
  | nil => simp [sumSnd]
  | cons p ps ih =>
    have h1 := ih (fun q hq => hidf q (List.mem_cons_of_mem p hq))
    have hp := hidf p (List.mem_cons_self p ps)
    have hc : (0 : ℝ) ≤ (p.2 : ℝ) := Nat.cast_nonneg p.2
    have h2 : -(p.2 : ℝ) ≤ (p.2 : ℝ) * idf p.1 := by nlinarith
    have h3 : sumSnd (p :: ps) = p.2 + sumSnd ps := by simp [sumSnd]
    rw [h3, List.map_cons, List.sum_cons]
    push_cast
    linarith

theorem sentScore_ge (idf : Nat → ℝ) (vec : List (Nat × Nat))
    (hidf : ∀ p ∈ vec, -1 ≤ idf p.1) :
    -(sumSnd vec : ℝ) ≤ sentScore idf vec := by
  rw [sentScore_eq_sum]
  exact sum_tf_idf_ge vec idf hidf

theorem sentScore_nonneg (idf : Nat → ℝ) (vec : List (Nat × Nat))
    (hidf : ∀ p ∈ vec, 0 ≤ idf p.1) : 0 ≤ sentScore idf vec := by
  rw [sentScore_eq_sum]
  apply List.sum_nonneg
  intro x hx
  obtain ⟨p, hp, rfl⟩ := List.mem_map.mp hx
  exact mul_nonneg (Nat.cast_nonneg p.2) (hidf p hp)

/-! ### Pipeline-level facts -/

theorem vecsOf_length (content : List Char) : (vecsOf content).length = nsentOf content := by
  obtain ⟨h1, _, _, _⟩ := buildGo_shape MAX_VOCAB MAX_WORDS_SENT (sentsOf content) []
    (by simp [wordsOf])
  exact h1

theorem scoresOf_length (content : List Char) : (scoresOf content).length = nsentOf content := by
  unfold scoresOf
  rw [List.length_map, vecsOf_length]

theorem dfAt_vocabOf_le (content : List Char) (v : Nat) :
    dfAt (vocabOf content) v ≤ nsentOf content := by
  rcases Nat.lt_or_ge v (vocabOf content).length with hv | hv
  · have he : (vocabOf content).getD v ventryD ∈ vocabOf content := by
      rw [List.getD_eq_getElem _ _ hv]
      exact (vocabOf content).getElem_mem hv
    exact buildGo_df_le MAX_VOCAB MAX_WORDS_SENT (sentsOf content) _ he
  · unfold dfAt
    rw [List.getD_eq_default _ _ hv]
    exact Nat.zero_le _

theorem idfOf_ge_neg_one (content : List Char) (h1 : 1 ≤ nsentOf content) (v : Nat) :
    -1 ≤ idfOf content v :=
  idfTable_ge_neg_one (nsentOf content) (vocabOf content) v h1 (dfAt_vocabOf_le content v)

theorem buildGo_sumSnd_le (maxV maxW : Nat) (sents : List (List Char)) :
    ∀ (vocab : List VocabEntry) (vec : List (Nat × Nat)),
      vec ∈ (buildGo maxV maxW sents vocab).2 → sumSnd vec ≤ maxW := by
  induction sents with
  | nil =>
    intro vocab vec hvec
    simp [buildGo] at hvec
  | cons s rest ih =>
    intro vocab vec hvec
    have hstep : (buildGo maxV maxW (s :: rest) vocab).2 =
        (processSentence maxV maxW vocab s).2 ::
          (buildGo maxV maxW rest (processSentence maxV maxW vocab s).1).2 := by
      simp [buildGo]
    rw [hstep] at hvec
    rcases List.mem_cons.mp hvec with rfl | hvec'
    · have h1 : (processSentence maxV maxW vocab s).2 =
          (sentLoop maxV (tokenize_sentence s maxW) vocab []).2 := rfl
      rw [h1]
      have h2 := sentLoop_sumSnd maxV (tokenize_sentence s maxW) vocab []
      have h3 := tokenize_length_le s maxW
      have h4 : sumSnd ([] : List (Nat × Nat)) = 0 := rfl
      omega
    · exact ih _ vec hvec'

theorem vecsOf_sumSnd_le (content : List Char) (vec : List (Nat × Nat))
    (h : vec ∈ vecsOf content) : sumSnd vec ≤ MAX_WORDS_SENT :=
  buildGo_sumSnd_le MAX_VOCAB MAX_WORDS_SENT (sentsOf content) [] vec h

/-- Every computed sentence score strictly beats the `-1e300` sentinel of the
selection loop. -/
theorem scoresOf_gt_sentinel (content : List Char) (h1 : 1 ≤ nsentOf content) :
    ∀ j, j < (scoresOf content).length → -1e300 < (scoresOf content).getD j 0 := by
  intro j hj
  have hj' : j < (vecsOf content).length := by
    rw [vecsOf_length]
    rw [scoresOf_length] at hj
    exact hj
  have hsc : (scoresOf content).getD j 0 = sentScore (idfOf content) ((vecsOf content).getD j []) := by
    have hj2 : j < ((vecsOf content).map (sentScore (idfOf content))).length := by
      rw [List.length_map]
      exact hj'
    unfold scoresOf
    rw [List.getD_eq_getElem _ _ hj2, List.getElem_map, List.getD_eq_getElem _ _ hj']
  rw [hsc]
  have hmem : (vecsOf content).getD j [] ∈ vecsOf content := by
    rw [List.getD_eq_getElem _ _ hj']
    exact (vecsOf content).getElem_mem hj'
  have hsum := vecsOf_sumSnd_le content _ hmem
  have hge := sentScore_ge (idfOf content) ((vecsOf content).getD j [])
    (fun p _ => idfOf_ge_neg_one content h1 p.1)
  have hbound : -(2048 : ℝ) ≤ -((sumSnd ((vecsOf content).getD j [])) : ℝ) := by
    have : ((sumSnd ((vecsOf content).getD j [])) : ℝ) ≤ (2048 : ℝ) := by
      exact_mod_cast hsum
    linarith
  have hfinal : (-1e300 : ℝ) < -(2048 : ℝ) := by norm_num
  linarith

/-- The status code of `fish_summary` is always 0 (success). -/
theorem fish_summary_status (content : List Char) (depth : Int) :
    (fish_summary content depth).1 = 0 := by
  unfold fish_summary
  by_cases h : nsentOf content = 0
  · rw [if_pos h]
  · rw [if_neg h]

/-- The number of summary sentences is exactly `min (mappedK depth) nsent`
whenever there is at least one sentence. -/
theorem fish_summary_count (content : List Char) (depth : Int)
    (h1 : 1 ≤ nsentOf content) :
    (fish_summary content depth).2.length = min (mappedK depth) (nsentOf content) := by
  unfold fish_summary
  rw [if_neg (by omega)]
  show (outOrder (selectTopK (scoresOf content) (min (mappedK depth) (nsentOf content)))).length = _
  rw [outOrder_length]
  unfold selectTopK
  have hlen : (List.replicate (scoresOf content).length false).length =
      (scoresOf content).length := List.length_replicate _ _
  rw [selectRounds_count (scoresOf content) (scoresOf_gt_sentinel content h1) _ _ hlen]
  have hrep : (List.replicate (scoresOf content).length false).count true = 0 := by
    rw [List.count_replicate]
    simp
  rw [hrep, hlen, scoresOf_length]
  have hK : 1 ≤ mappedK depth := by
    unfold mappedK
    by_cases hd : depth ≤ 1
    · rw [if_pos hd]
    · rw [if_neg hd]
      by_cases hd2 : depth = 2
      · rw [if_pos hd2]
        omega
      · rw [if_neg hd2]
        by_cases hd3 : depth = 3
        · rw [if_pos hd3]
          omega
        · rw [if_neg hd3]
          omega
  omega

/-! ### Claim theorems -/

/-- C1: for every document with at least one sentence and every depth,
`fish_summary` emits exactly `min (mappedK depth) totalSentences` sentences,
where the depth mapping is 1 (for depth ≤ 1), 3, 5, and 10 for depth ≥ 4. -/
theorem claim_C1 (content : List Char) (depth : Int) (h1 : 1 ≤ nsentOf content) :
    (fish_summary content depth).2.length = min (mappedK depth) (nsentOf content) ∧
    mappedK 1 = 1 ∧ mappedK 2 = 3 ∧ mappedK 3 = 5 ∧ ∀ d : Int, 4 ≤ d → mappedK d = 10 := by
  refine ⟨fish_summary_count content depth h1, by decide, by decide, by decide, ?_⟩
  intro d hd
  unfold mappedK
  rw [if_neg (by omega), if_neg (by omega), if_neg (by omega)]

/-- Witness for C1 on the two-sentence document "a. b." at depth 7. -/
theorem claim_C1_witness :
    1 ≤ nsentOf ("a. b.".toList) ∧
    (fish_summary ("a. b.".toList) 7).2.length =
      min (mappedK 7) (nsentOf ("a. b.".toList)) := by
  have hs : 1 ≤ nsentOf ("a. b.".toList) := by
    simp [nsentOf, sentsOf, split_sentences, splitGo, fishTrim, isBoundaryC, isSpaceC,
      MAX_SENTENCES]
  exact ⟨hs, (claim_C1 ("a. b.".toList) 7 hs).1⟩

/-- C2: the original indices of the sentences emitted in the summary are
strictly increasing, even though selection is score-ranked. -/
theorem claim_C2 (content : List Char) (depth : Int) :
    ((fish_summary content depth).2).Pairwise (· < ·) := by
  unfold fish_summary
  by_cases h : nsentOf content = 0
  · rw [if_pos h]
    simp
  · rw [if_neg h]
    exact outOrder_sorted _

/-- C3: each greedy round of the selector picks the not-yet-selected sentence
of maximal score, and on equal scores the lower original index wins: the
returned index is eligible, weakly maximal, and strictly exceeds every
earlier eligible index's score. -/
theorem claim_C3 (scores : List ℝ) (sel : List Bool)
    (hex : ∃ j, isCand scores sel j ∧ -1e300 < scores.getD j 0) :
    ∃ b, pickBest scores sel = some b ∧ isCand scores sel b ∧
      (∀ j, isCand scores sel j → scores.getD j 0 ≤ scores.getD b 0) ∧
      (∀ j, j < b → isCand scores sel j → scores.getD j 0 < scores.getD b 0) :=
  pickBest_spec scores sel hex

/-- Witness for C3 on scores `[2, 2, 1]` with nothing selected yet. -/
theorem claim_C3_witness :
    (∃ j, isCand [(2 : ℝ), 2, 1] [false, false, false] j ∧
      -1e300 < ([(2 : ℝ), 2, 1].getD j 0)) ∧
    (∃ b, pickBest [(2 : ℝ), 2, 1] [false, false, false] = some b ∧
      isCand [(2 : ℝ), 2, 1] [false, false, false] b ∧
      (∀ j, isCand [(2 : ℝ), 2, 1] [false, false, false] j →
        [(2 : ℝ), 2, 1].getD j 0 ≤ [(2 : ℝ), 2, 1].getD b 0) ∧
      (∀ j, j < b → isCand [(2 : ℝ), 2, 1] [false, false, false] j →
        [(2 : ℝ), 2, 1].getD j 0 < [(2 : ℝ), 2, 1].getD b 0)) := by
  have hg : ([(2 : ℝ), 2, 1].getD 0 0) = 2 := rfl
  have hex : ∃ j, isCand [(2 : ℝ), 2, 1] [false, false, false] j ∧
      -1e300 < ([(2 : ℝ), 2, 1].getD j 0) := by
    refine ⟨0, ⟨by simp, rfl⟩, ?_⟩
    rw [hg]
    norm_num
  exact ⟨hex, claim_C3 [(2 : ℝ), 2, 1] [false, false, false] hex⟩

/-- C6: an empty or all-whitespace document segments into zero sentences and
`fish_summary` returns success with an empty summary, not an error. -/
theorem claim_C6 (content : List Char) (depth : Int)
    (h : ∀ c ∈ content, isSpaceC c = true) :
    nsentOf content = 0 ∧ fish_summary content depth = (0, []) := by
  have hz : nsentOf content = 0 := by
    unfold nsentOf sentsOf
    rw [split_sentences_all_space content MAX_SENTENCES h]
    rfl
  refine ⟨hz, ?_⟩
  unfold fish_summary
  rw [if_pos hz]

/-- Witness for C6 on the empty document at depth 3. -/
theorem claim_C6_witness :
    (∀ c ∈ ([] : List Char), isSpaceC c = true) ∧
    nsentOf ([] : List Char) = 0 ∧ fish_summary ([] : List Char) 3 = (0, []) :=
  ⟨by simp, claim_C6 [] 3 (by simp)⟩

/-- C8: the resource bounds truncate accumulation rather than fail: the
status code is always success, and the sentence count, vocabulary size and
per-sentence token count never exceed their configured maxima. -/
theorem claim_C8 (content : List Char) (depth : Int) :
    (fish_summary content depth).1 = 0 ∧
    nsentOf content ≤ MAX_SENTENCES ∧
    (vocabOf content).length ≤ MAX_VOCAB ∧
    ∀ s ∈ sentsOf content, (tokenize_sentence s MAX_WORDS_SENT).length ≤ MAX_WORDS_SENT := by
  refine ⟨fish_summary_status content depth, ?_, ?_, ?_⟩
  · exact split_sentences_length_le content MAX_SENTENCES
  · obtain ⟨_, _, _, h4⟩ := buildGo_shape MAX_VOCAB MAX_WORDS_SENT (sentsOf content) []
      (by simp [wordsOf])
    exact h4 (by simp)
  · intro s _
    exact tokenize_length_le s MAX_WORDS_SENT

/-- Witness for C8 on the document "a b. c." at depth 2, with the token-count
bound instantiated at its first sentence. -/
theorem claim_C8_witness :
    (fish_summary ("a b. c.".toList) 2).1 = 0 ∧
    nsentOf ("a b. c.".toList) ≤ MAX_SENTENCES ∧
    (vocabOf ("a b. c.".toList)).length ≤ MAX_VOCAB ∧
    (['a', ' ', 'b', '.'] ∈ sentsOf ("a b. c.".toList) ∧
      (tokenize_sentence ['a', ' ', 'b', '.'] MAX_WORDS_SENT).length ≤ MAX_WORDS_SENT) := by
  have hs : sentsOf ("a b. c.".toList) = [['a', ' ', 'b', '.'], ['c', '.']] := by
    simp [sentsOf, split_sentences, splitGo, fishTrim, isBoundaryC, isSpaceC, MAX_SENTENCES]
  have hmem : ['a', ' ', 'b', '.'] ∈ sentsOf ("a b. c.".toList) := by
    rw [hs]
    simp
  obtain ⟨w1, w2, w3, w4⟩ := claim_C8 ("a b. c.".toList) 2
  exact ⟨w1, w2, w3, hmem, w4 _ hmem⟩

/-- C9: tokenization yields only nonempty, purely alphanumeric, lower-cased
tokens of length at most `MAX_WORD_LEN - 1`, and a maximal alphanumeric run
longer than that bound is emitted as a single token truncated to it. -/
theorem claim_C9 (sent : List Char) (maxW : Nat) (run : List Char)
    (hrun : ∀ c ∈ run, isAlnumC c = true) (hlong : MAX_WORD_LEN - 1 < run.length)
    (hmax : 1 ≤ maxW) :
    (∀ t ∈ tokenize_sentence sent maxW, t ≠ [] ∧ t.length ≤ MAX_WORD_LEN - 1 ∧
      ∀ c ∈ t, isAlnumC c = true ∧ toLowerC c = c) ∧
    tokenize_sentence run maxW = [(run.take (MAX_WORD_LEN - 1)).map toLowerC] := by
  constructor
  · intro t ht
    exact tokenize_sentence_good sent maxW t ht
  · unfold tokenize_sentence
    rw [tokGo_run maxW run [] 0 hrun (by omega)]
    have hfill : fillBuf [] run = (run.take (MAX_WORD_LEN - 1)).map toLowerC := by
      have h := fillBuf_take run [] (by simp)
      simpa using h
    rw [hfill]
    rw [if_neg]
    intro hc
    have hlen : ((run.take (MAX_WORD_LEN - 1)).map toLowerC).length = MAX_WORD_LEN - 1 := by
      rw [List.length_map, List.length_take]
      omega
    rw [hc] at hlen
    simp only [List.length_nil] at hlen
    have : (0 : Nat) < MAX_WORD_LEN - 1 := by decide
    omega

/-- Witness for C9 on the sentence "Ab3 x!" and a 64-character run of 'A'. -/
theorem claim_C9_witness :
    (∀ c ∈ List.replicate 64 'A', isAlnumC c = true) ∧
    MAX_WORD_LEN - 1 < (List.replicate 64 'A').length ∧
    (1 : Nat) ≤ MAX_WORDS_SENT ∧
    tokenize_sentence (List.replicate 64 'A') MAX_WORDS_SENT =
      [((List.replicate 64 'A').take (MAX_WORD_LEN - 1)).map toLowerC] := by
  refine ⟨by decide, by decide, by decide, ?_⟩
  exact (claim_C9 ("Ab3 x!".toList) MAX_WORDS_SENT (List.replicate 64 'A')
    (by decide) (by decide) (by decide)).2

/-- C10: for every depth below 1 (zero or negative), `fish_summary` behaves
exactly as for depth 1, selecting `min 1 totalSentences` sentences. -/
theorem claim_C10 (content : List Char) (depth : Int) (hd : depth ≤ 1) :
    fish_summary content depth = fish_summary content 1 ∧
    (1 ≤ nsentOf content → (fish_summary content depth).2.length = 1) := by
  have hK : mappedK depth = 1 := by
    unfold mappedK
    rw [if_pos hd]
  have hK1 : mappedK 1 = 1 := by decide
  constructor
  · unfold fish_summary
    rw [hK, hK1]
  · intro h1
    rw [fish_summary_count content depth h1, hK]
    omega

/-- Witness for C10 on the document "a. b." at depth 0. -/
theorem claim_C10_witness :
    (0 : Int) ≤ 1 ∧ fish_summary ("a. b.".toList) 0 = fish_summary ("a. b.".toList) 1 ∧
    (fish_summary ("a. b.".toList) 0).2.length = 1 := by
  have h1 : 1 ≤ nsentOf ("a. b.".toList) := by
    simp [nsentOf, sentsOf, split_sentences, splitGo, fishTrim, isBoundaryC, isSpaceC,
      MAX_SENTENCES]
  obtain ⟨w1, w2⟩ := claim_C10 ("a. b.".toList) 0 (by decide)
  exact ⟨by decide, w1, w2 h1⟩

/-- C4: the computed weight of every term is `ln(nsent / (1 + df))`, every
sentence's score is the sum over its stored term vector of count × idf, and
(without vocabulary overflow) the stored counts are the exact occurrence
counts of the corresponding vocabulary words in the sentence's token list. -/
theorem claim_C4 (content : List Char)
    (hfit : (vocabOf content).length < MAX_VOCAB) :
    (∀ v, idfTable (nsentOf content) (vocabOf content) v =
      Real.log ((nsentOf content : ℝ) / (1 + (dfAt (vocabOf content) v : ℝ)))) ∧
    (∀ i, i < nsentOf content →
      (scoresOf content).getD i 0 =
        (((vecsOf content).getD i []).map
          (fun p => (p.2 : ℝ) * idfTable (nsentOf content) (vocabOf content) p.1)).sum) ∧
    (∀ i, i < nsentOf content → ∀ p ∈ (vecsOf content).getD i [],
      p.2 = (tokenize_sentence ((sentsOf content).getD i []) MAX_WORDS_SENT).count
        (wordAt (vocabOf content) p.1)) := by
  refine ⟨fun v => rfl, ?_, ?_⟩
  · intro i hi
    have hi' : i < (vecsOf content).length := by
      rw [vecsOf_length]
      exact hi
    have hi2 : i < ((vecsOf content).map (sentScore (idfOf content))).length := by
      rw [List.length_map]
      exact hi'
    unfold scoresOf
    rw [List.getD_eq_getElem _ _ hi2, List.getElem_map, ← List.getD_eq_getElem _ _ hi']
    rw [sentScore_eq_sum]
    rfl
  · intro i hi p hp
    exact (buildGo_count_exact MAX_VOCAB MAX_WORDS_SENT (sentsOf content) []
      (by simp [wordsOf]) hfit i hi p hp).2

/-- Witness for C4 on the document "a a. b.": the stored pair `(0, 2)` of the
first sentence records that the word at vocabulary index 0 occurs twice. -/
theorem claim_C4_witness :
    (vocabOf ("a a. b.".toList)).length < MAX_VOCAB ∧
    (0 : Nat) < nsentOf ("a a. b.".toList) ∧
    ((0, 2) : Nat × Nat) ∈ (vecsOf ("a a. b.".toList)).getD 0 [] ∧
    ((0, 2) : Nat × Nat).2 =
      (tokenize_sentence ((sentsOf ("a a. b.".toList)).getD 0 []) MAX_WORDS_SENT).count
        (wordAt (vocabOf ("a a. b.".toList)) ((0, 2) : Nat × Nat).1) := by
  have hs : sentsOf ("a a. b.".toList) = [['a', ' ', 'a', '.'], ['b', '.']] := by
    simp [sentsOf, split_sentences, splitGo, fishTrim, isBoundaryC, isSpaceC, MAX_SENTENCES]
  have hfit : (vocabOf ("a a. b.".toList)).length < MAX_VOCAB := by
    unfold vocabOf corpusOf
    rw [hs]
    decide
  have h0 : (0 : Nat) < nsentOf ("a a. b.".toList) := by
    unfold nsentOf
    rw [hs]
    decide
  have hmem : ((0, 2) : Nat × Nat) ∈ (vecsOf ("a a. b.".toList)).getD 0 [] := by
    unfold vecsOf corpusOf
    rw [hs]
    decide
  exact ⟨hfit, h0, hmem, (claim_C4 ("a a. b.".toList) hfit).2.2 0 h0 (0, 2) hmem⟩

/-- C7: document frequencies never exceed the number of sentences, and (no
overflow) one sentence's processing bumps each pre-existing entry's df by the
indicator of its word's presence among the sentence's tokens — exactly once
per distinct present term, regardless of repetition — while entries created
by the sentence end with df equal to their own presence indicator. -/
theorem claim_C7 (content : List Char) (vocab : List VocabEntry) (sent : List Char)
    (hn : (wordsOf vocab).Nodup)
    (hfit : (processSentence MAX_VOCAB MAX_WORDS_SENT vocab sent).1.length < MAX_VOCAB) :
    (∀ e ∈ vocabOf content, e.df ≤ nsentOf content) ∧
    (∀ j, j < vocab.length →
      dfAt (processSentence MAX_VOCAB MAX_WORDS_SENT vocab sent).1 j =
        dfAt vocab j +
          (if wordAt vocab j ∈ tokenize_sentence sent MAX_WORDS_SENT then 1 else 0)) ∧
    (∀ j, vocab.length ≤ j →
      dfAt (processSentence MAX_VOCAB MAX_WORDS_SENT vocab sent).1 j =
        (if wordAt (processSentence MAX_VOCAB MAX_WORDS_SENT vocab sent).1 j ∈
          tokenize_sentence sent MAX_WORDS_SENT then 1 else 0)) := by
  obtain ⟨e1, e2, _⟩ := processSentence_exact MAX_VOCAB MAX_WORDS_SENT vocab sent hn hfit
  exact ⟨buildGo_df_le MAX_VOCAB MAX_WORDS_SENT (sentsOf content), e1, e2⟩

/-- Witness for C7: processing "a a b." against the one-entry vocabulary
`[z]` bumps z's df by 0 (absent) even though other words repeat. -/
theorem claim_C7_witness :
    (wordsOf [(⟨['z'], 5, 7⟩ : VocabEntry)]).Nodup ∧
    (processSentence MAX_VOCAB MAX_WORDS_SENT [(⟨['z'], 5, 7⟩ : VocabEntry)]
      ("a a b.".toList)).1.length < MAX_VOCAB ∧
    dfAt (processSentence MAX_VOCAB MAX_WORDS_SENT [(⟨['z'], 5, 7⟩ : VocabEntry)]
        ("a a b.".toList)).1 0 =
      dfAt [(⟨['z'], 5, 7⟩ : VocabEntry)] 0 +
        (if wordAt [(⟨['z'], 5, 7⟩ : VocabEntry)] 0 ∈
          tokenize_sentence ("a a b.".toList) MAX_WORDS_SENT then 1 else 0) := by
  have hn : (wordsOf [(⟨['z'], 5, 7⟩ : VocabEntry)]).Nodup := by decide
  have hfit : (processSentence MAX_VOCAB MAX_WORDS_SENT [(⟨['z'], 5, 7⟩ : VocabEntry)]
      ("a a b.".toList)).1.length < MAX_VOCAB := by decide
  exact ⟨hn, hfit,
    (claim_C7 [] [(⟨['z'], 5, 7⟩ : VocabEntry)] ("a a b.".toList) hn hfit).2.1 0 (by decide)⟩

/-- Document of twelve identical sentences "a.", used to refute C5. -/
def docC5 : List Char := "a. a. a. a. a. a. a. a. a. a. a. a.".toList

theorem docC5_sents : sentsOf docC5 =
    [['a', '.'], ['a', '.'], ['a', '.'], ['a', '.'], ['a', '.'], ['a', '.'],
     ['a', '.'], ['a', '.'], ['a', '.'], ['a', '.'], ['a', '.'], ['a', '.']] := by
  simp [docC5, sentsOf, split_sentences, splitGo, fishTrim, isBoundaryC, isSpaceC,
    MAX_SENTENCES]

/-- C5 counterexample: a document of twelve sentences — not a degenerate
single- or few-sentence case — in which the first sentence's score is
strictly negative: its only term occurs in every sentence, so df = 12 =
totalSentences and idf = ln(12/13) < 0. -/
theorem claim_C5_counterexample :
    nsentOf docC5 = 12 ∧ (scoresOf docC5).getD 0 0 < 0 := by
  have hs := docC5_sents
  have hn : nsentOf docC5 = 12 := by
    unfold nsentOf
    rw [hs]
    rfl
  have hv : vocabOf docC5 = [⟨['a'], 12, 12⟩] := by
    unfold vocabOf corpusOf
    rw [hs]
    decide
  have hvec : vecsOf docC5 = List.replicate 12 [(0, 1)] := by
    unfold vecsOf corpusOf
    rw [hs]
    decide
  have hdf : dfAt (vocabOf docC5) 0 = 12 := by
    rw [hv]
    rfl
  have hscore : (scoresOf docC5).getD 0 0 = Real.log (12 / 13) := by
    unfold scoresOf
    rw [hvec, List.map_replicate]
    have h12 : List.replicate 12 (sentScore (idfOf docC5) [(0, 1)]) =
        sentScore (idfOf docC5) [(0, 1)] ::
          List.replicate 11 (sentScore (idfOf docC5) [(0, 1)]) := rfl
    rw [h12, List.getD_cons_zero, sentScore_eq_sum]
    have hidf : idfOf docC5 0 = Real.log (12 / 13) := by
      unfold idfOf idfTable
      rw [hn, hdf]
      norm_num
    simp [hidf]
  rw [hscore]
  exact ⟨hn, Real.log_neg (by norm_num) (by norm_num)⟩

/-- C5 as amended: a sentence's score is nonnegative provided every term of
its vector has document frequency at most totalSentences − 1 (so that the
idf argument is at least 1); the unconditional claim fails because a term
occurring in every sentence has df = totalSentences and idf = ln(N/(N+1)) < 0,
in documents of any size. -/
theorem claim_C5_amended (content : List Char) (i : Nat)
    (h : ∀ p ∈ (vecsOf content).getD i [],
      dfAt (vocabOf content) p.1 + 1 ≤ nsentOf content) :
    0 ≤ (scoresOf content).getD i 0 := by
  rcases Nat.lt_or_ge i (scoresOf content).length with hi | hi
  · have hi' : i < (vecsOf content).length := by
      rw [vecsOf_length]
      rw [scoresOf_length] at hi
      exact hi
    have hi2 : i < ((vecsOf content).map (sentScore (idfOf content))).length := by
      rw [List.length_map]
      exact hi'
    have hsc : (scoresOf content).getD i 0 =
        sentScore (idfOf content) ((vecsOf content).getD i []) := by
      unfold scoresOf
      rw [List.getD_eq_getElem _ _ hi2, List.getElem_map, List.getD_eq_getElem _ _ hi']
    rw [hsc]
    apply sentScore_nonneg
    intro p hp
    exact idfTable_nonneg (nsentOf content) (vocabOf content) p.1 (h p hp)
  · rw [List.getD_eq_default _ _ hi]

/-- Witness for the amended C5 on the document "a a. b.", whose terms all
have df = 1 < 2 = totalSentences, giving score 0 for the first sentence. -/
theorem claim_C5_amended_witness :
    (∀ p ∈ (vecsOf ("a a. b.".toList)).getD 0 [],
      dfAt (vocabOf ("a a. b.".toList)) p.1 + 1 ≤ nsentOf ("a a. b.".toList)) ∧
    0 ≤ (scoresOf ("a a. b.".toList)).getD 0 0 := by
  have hs : sentsOf ("a a. b.".toList) = [['a', ' ', 'a', '.'], ['b', '.']] := by
    simp [sentsOf, split_sentences, splitGo, fishTrim, isBoundaryC, isSpaceC, MAX_SENTENCES]
  have hcond : ∀ p ∈ (vecsOf ("a a. b.".toList)).getD 0 [],
      dfAt (vocabOf ("a a. b.".toList)) p.1 + 1 ≤ nsentOf ("a a. b.".toList) := by
    unfold vecsOf vocabOf corpusOf nsentOf
    rw [hs]
    decide
  exact ⟨hcond, claim_C5_amended ("a a. b.".toList) 0 hcond⟩

end Fish
